import Mathlib

/-!
Verification of the Hammy-the-Hire-Tracker ingestion pipeline.

This file gives a shallow embedding of the extraction/normalization pipeline:
the identity generator (`generate_job_id`, SHA-256 based), the per-source
parsers of `local_app.py`, `functions/email_scanner/handler.py` and
`app/parsers/indeed.py`, the source detector and `parse_email` dispatcher of
`app/parsers/__init__.py`, the WeWorkRemotely RSS fetcher, and the
insert-if-absent merge loops of `api_scan` / `lambda_handler` / `api_capture`.

HTML/XML documents are embedded at the interface the code actually reads
through BeautifulSoup / ElementTree: a parsed email is the list of anchor
elements whose href matched the parser's pattern, each carrying the values the
code extracts from it (href, heading text, full text, enclosing-block text);
an RSS feed is a list of items whose elements carry their text and child
count (child count matters because the code tests ElementTree truthiness).
-/

set_option maxRecDepth 10000

/-! ## Python string primitives (strings as their code-point lists) -/

/-- Python `s[:n]` on a `str` (code-point slice). -/
def pyTake (n : Nat) (s : String) : String := ⟨s.data.take n⟩

/-- Python `s.lower()`, restricted to ASCII case mapping. -/
def pyLower (s : String) : String := ⟨s.data.map Char.toLower⟩

/-- Python `str.strip()` on a char list: drop whitespace from both ends
(trailing first, then leading). -/
def pyStripL (l : List Char) : List Char :=
  ((l.reverse.dropWhile Char.isWhitespace).reverse).dropWhile Char.isWhitespace

/-- Python `str.strip()`. -/
def pyStrip (s : String) : String := ⟨pyStripL s.data⟩

/-- Python `needle in haystack` substring test. -/
def containsSub (needle haystack : String) : Bool :=
  (haystack.data.tails).any (fun t => needle.data.isPrefixOf t)

/-- Fuel-driven split on a (nonempty) separator, keeping empty segments —
Python `s.split(sep)`. The fuel is structural so the kernel can evaluate. -/
def pySplitAux (sep : List Char) : Nat → List Char → List Char → List (List Char)
  | 0, rest, acc => [acc.reverse ++ rest]
  | fuel + 1, l, acc =>
    match l with
    | [] => [acc.reverse]
    | c :: cs =>
      if sep.isPrefixOf (c :: cs) then
        acc.reverse :: pySplitAux sep fuel (List.drop (max 1 sep.length) (c :: cs)) []
      else pySplitAux sep fuel cs (c :: acc)

/-- Python `s.split(sep)` for a nonempty separator. -/
def pySplit (sep s : String) : List String :=
  (pySplitAux sep.data (s.data.length + 1) s.data []).map (fun l => ⟨l⟩)

/-- Split a char list into maximal whitespace-free words (Python `s.split()`). -/
def wordsAux : List Char → List Char → List (List Char)
  | [], acc => if acc.isEmpty then [] else [acc.reverse]
  | c :: cs, acc =>
    if c.isWhitespace then
      if acc.isEmpty then wordsAux cs [] else acc.reverse :: wordsAux cs []
    else wordsAux cs (c :: acc)

/-- The words of a char list. -/
def wordsOf (l : List Char) : List (List Char) := wordsAux l []

/-- Join words with single spaces (Python `' '.join(ws)`). -/
def joinWords : List (List Char) → List Char
  | [] => []
  | [w] => w
  | w :: ws => w ++ ' ' :: joinWords ws

/-- Python `' '.join(s.split())`: collapse whitespace runs, trim ends. -/
def collapseWs (s : String) : String := ⟨joinWords (wordsOf s.data)⟩

/-! ## SHA-256 (FIPS 180-4), words as `Nat` reduced mod `2^32` -/

namespace Sha256

/-- Reduce to a 32-bit word. -/
def w32 (n : Nat) : Nat := n % 4294967296

/-- Rotate the word `x` right by `k` bits, wrapping at 32. -/
def rotr (x k : Nat) : Nat := w32 (Nat.lor (x >>> k) (x <<< (32 - k)))

/-- Choice function. -/
def ch (x y z : Nat) : Nat := (x &&& y) ^^^ ((x ^^^ 4294967295) &&& z)

/-- Majority function. -/
def maj (x y z : Nat) : Nat := Nat.xor (Nat.xor (x &&& y) (x &&& z)) (y &&& z)

/-- Σ₀. -/
def bigS0 (x : Nat) : Nat := (rotr x 2) ^^^ (rotr x 13) ^^^ (rotr x 22)

/-- Σ₁. -/
def bigS1 (x : Nat) : Nat := (rotr x 6) ^^^ (rotr x 11) ^^^ (rotr x 25)

/-- σ₀. -/
def smS0 (x : Nat) : Nat := (rotr x 7) ^^^ (rotr x 18) ^^^ (x >>> 3)

/-- σ₁. -/
def smS1 (x : Nat) : Nat := (rotr x 17) ^^^ (rotr x 19) ^^^ (x >>> 10)

/-- The 64 round words of FIPS 180-4 section 4.2.2, written in decimal. -/
def K : List Nat :=
  [1116352408, 1899447441, 3049323471, 3921009573,
   961987163, 1508970993, 2453635748, 2870763221,
   3624381080, 310598401, 607225278, 1426881987,
   1925078388, 2162078206, 2614888103, 3248222580,
   3835390401, 4022224774, 264347078, 604807628,
   770255983, 1249150122, 1555081692, 1996064986,
   2554220882, 2821834349, 2952996808, 3210313671,
   3336571891, 3584528711, 113926993, 338241895,
   666307205, 773529912, 1294757372, 1396182291,
   1695183700, 1986661051, 2177026350, 2456956037,
   2730485921, 2820302411, 3259730800, 3345764771,
   3516065817, 3600352804, 4094571909, 275423344,
   430227734, 506948616, 659060556, 883997877,
   958139571, 1322822218, 1537002063, 1747873779,
   1955562222, 2024104815, 2227730452, 2361852424,
   2428436474, 2756734187, 3204031479, 3329325298]

/-- Working state: eight 32-bit words. -/
structure Hs where
  a : Nat
  b : Nat
  c : Nat
  d : Nat
  e : Nat
  f : Nat
  g : Nat
  h : Nat
deriving DecidableEq

/-- Initial hash value. -/
def H0 : Hs :=
  ⟨1779033703, 3144134277, 1013904242, 2773480762,
   1359893119, 2600822924, 528734635, 1541459225⟩

/-- Pad a byte list per FIPS 180-4: `0x80`, zeros, 64-bit big-endian bit length. -/
def padBytes (msg : List Nat) : List Nat :=
  let L := msg.length
  let k := (119 - (L % 64)) % 64
  msg ++ 128 :: List.replicate k 0 ++ (List.range 8).map (fun i => ((8 * L) >>> (56 - 8 * i)) % 256)

/-- Group bytes into big-endian 32-bit words. -/
def bytesToWords : List Nat → List Nat
  | a :: b :: c :: d :: rest => (a * 16777216 + b * 65536 + c * 256 + d) :: bytesToWords rest
  | _ => []

/-- One message-schedule extension step over the reversed schedule so far. -/
def schedStep (acc : List Nat) : Nat :=
  w32 (smS1 (acc.getD 1 0) + acc.getD 6 0 + smS0 (acc.getD 14 0) + acc.getD 15 0)

/-- Extend the reversed schedule by `n` words. -/
def schedExtend : Nat → List Nat → List Nat
  | 0, acc => acc
  | n + 1, acc => schedExtend n (schedStep acc :: acc)

/-- The 64-word message schedule of a block's 16 words. -/
def schedule (ws : List Nat) : List Nat := (schedExtend 48 ws.reverse).reverse

/-- One compression round. -/
def roundStep (s : Hs) (kw : Nat × Nat) : Hs :=
  let t1 := w32 (s.h + bigS1 s.e + ch s.e s.f s.g + kw.1 + kw.2)
  let t2 := w32 (bigS0 s.a + maj s.a s.b s.c)
  ⟨w32 (t1 + t2), s.a, s.b, s.c, w32 (s.d + t1), s.e, s.f, s.g⟩

/-- Compress one 64-byte block into the running state. -/
def compressBlock (s : Hs) (block : List Nat) : Hs :=
  let ws := schedule (bytesToWords block)
  let t := (K.zip ws).foldl roundStep s
  ⟨w32 (s.a + t.a), w32 (s.b + t.b), w32 (s.c + t.c), w32 (s.d + t.d),
   w32 (s.e + t.e), w32 (s.f + t.f), w32 (s.g + t.g), w32 (s.h + t.h)⟩

/-- Split into `n` chunks of 64 bytes. -/
def chunksN : Nat → List Nat → List (List Nat)
  | 0, _ => []
  | n + 1, bs => bs.take 64 :: chunksN n (bs.drop 64)

/-- Split a padded message into 64-byte blocks. -/
def chunks (bs : List Nat) : List (List Nat) := chunksN (bs.length / 64) bs

/-- SHA-256 of a byte list, as the final eight-word state. -/
def sha256Words (msg : List Nat) : Hs := (chunks (padBytes msg)).foldl compressBlock H0

/-- A lowercase hex digit. -/
def hexDigitChar (n : Nat) : Char := if n < 10 then Char.ofNat (48 + n) else Char.ofNat (87 + n)

/-- Eight hex digits of a 32-bit word, big-endian. -/
def wordHex (w : Nat) : List Char := (List.range 8).map (fun i => hexDigitChar ((w >>> (28 - 4 * i)) % 16))

/-- The 64 hex characters of a digest state. -/
def hsHex (s : Hs) : List Char :=
  wordHex s.a ++ wordHex s.b ++ wordHex s.c ++ wordHex s.d ++
  wordHex s.e ++ wordHex s.f ++ wordHex s.g ++ wordHex s.h

/-- Python `hashlib.sha256(bytes).hexdigest()`. -/
def hexdigest (msg : List Nat) : String := ⟨hsHex (sha256Words msg)⟩

/-- UTF-8 encoding of one code point. -/
def utf8Char (c : Char) : List Nat :=
  let n := c.toNat
  if n < 128 then [n]
  else if n < 2048 then [192 ||| (n >>> 6), 128 ||| (n &&& 63)]
  else if n < 65536 then [224 ||| (n >>> 12), 128 ||| ((n >>> 6) &&& 63), 128 ||| (n &&& 63)]
  else [240 ||| (n >>> 18), 128 ||| ((n >>> 12) &&& 63), 128 ||| ((n >>> 6) &&& 63), 128 ||| (n &&& 63)]

/-- Python `s.encode()`: UTF-8 bytes of a string. -/
def utf8Str (s : String) : List Nat := (s.data.map utf8Char).flatten

end Sha256

/-- `generate_job_id` from `local_app.py` (identical in `shared` / `base.py`):
lowercase `url + ":" + title + ":" + company`, SHA-256, first 16 hex chars. -/
def generate_job_id (url title company : String) : String :=
  pyTake 16 (Sha256.hexdigest (Sha256.utf8Str (pyLower (url ++ ":" ++ title ++ ":" ++ company))))

/-- FIPS 180-4 test vector: SHA-256 of `"abc"`. -/
theorem sha256_vector_abc :
    Sha256.hexdigest (Sha256.utf8Str "abc") =
      "ba7816bf8f01cfea414140de5dae2223b00361a396177a9cb410ff61f20015ad" := by
  decide

/-- FIPS 180-4 test vector: SHA-256 of the empty message. -/
theorem sha256_vector_empty :
    Sha256.hexdigest (Sha256.utf8Str "") =
      "e3b0c44298fc1c149afbf4c8996fb92427ae41e4649b934ca495991b7852b855" := by
  decide

/-! ## The BeautifulSoup interface of an email

A parser sees an email as the list of anchors returned by its `find_all`
pattern; each anchor carries exactly the values the code reads off it. -/

/-- The enclosing block container of an anchor (`find_parent(['td','div','tr'])`
or `['td','div','li']`), as the two text views the code takes of it. -/
structure ParentBlock where
  /-- `parent.get_text(' ', strip=True)`. -/
  textSpace : String
  /-- `parent.get_text('\n')` split on newlines (each parser strips/filters). -/
  rawLines : List String
deriving DecidableEq

/-- One anchor matching a parser's href pattern. -/
structure Link where
  /-- `link.get('href', '')`. -/
  href : String
  /-- Text of the first `h2`/`h3`/`strong`/`span` descendant, when present. -/
  headText : Option String
  /-- `link.get_text(strip=True)` (resp. `get_text(separator=' ', strip=True)`). -/
  fullText : String
  /-- The nearest enclosing block container, when one exists. -/
  parent : Option ParentBlock
deriving DecidableEq

namespace LocalApp

/-- A job dict as built by the `local_app.py` email parsers. -/
structure Job where
  job_id : String
  title : String
  company : String
  location : String
  url : String
  source : String
  raw_text : String
  created_at : String
deriving DecidableEq

/-- Loop body of `local_app.parse_linkedin_jobs`, with the `seen` URL set made
explicit. NOTE: the split separator is the literal two-character string `"¬∑"`
present in the source (bytes `c2 ac e2 88 91`), a mojibake of `"·"`. -/
def parse_linkedin_loop (email_date : String) : List Link → List String → List Job
  | [], _ => []
  | link :: rest, seen =>
    let url := link.href
    if url ∈ seen then parse_linkedin_loop email_date rest seen
    else
      let seen := url :: seen
      let title := link.headText.getD link.fullText
      if title.length < 3 then parse_linkedin_loop email_date rest seen
      else
        let cl :=
          match link.parent with
          | none => ("", "", title)
          | some p =>
            let parts := pySplit "¬∑" p.textSpace
            (if parts.length > 1 then pyTake 100 (pyStrip (parts.getD 1 "")) else "",
             if parts.length > 2 then pyTake 100 (pyStrip (parts.getD 2 "")) else "",
             p.textSpace)
        { job_id := generate_job_id url title cl.1, title := pyTake 200 title,
          company := cl.1, location := cl.2.1, url := url, source := "linkedin",
          raw_text := pyTake 1000 cl.2.2, created_at := email_date } ::
          parse_linkedin_loop email_date rest seen

/-- `local_app.parse_linkedin_jobs` over the anchors matching
`linkedin\.com/comm/jobs/view`. -/
def parse_linkedin_jobs (links : List Link) (email_date : String) : List Job :=
  parse_linkedin_loop email_date links []

/-- Loop body of `local_app.parse_indeed_jobs`. -/
def parse_indeed_loop (email_date : String) : List Link → List String → List Job
  | [], _ => []
  | link :: rest, seen =>
    let url := link.href
    if url ∈ seen then parse_indeed_loop email_date rest seen
    else
      let seen := url :: seen
      let title := link.fullText
      if title.length < 3 then parse_indeed_loop email_date rest seen
      else
        let cl :=
          match link.parent with
          | none => ("", "", title)
          | some p =>
            let lines := (p.rawLines.map pyStrip).filter (fun l => !(l == ""))
            (if lines.length > 1 then pyTake 100 (lines.getD 1 "") else "",
             if lines.length > 2 then pyTake 100 (lines.getD 2 "") else "",
             p.textSpace)
        { job_id := generate_job_id url title cl.1, title := pyTake 200 title,
          company := cl.1, location := cl.2.1, url := url, source := "indeed",
          raw_text := pyTake 1000 cl.2.2, created_at := email_date } ::
          parse_indeed_loop email_date rest seen

/-- `local_app.parse_indeed_jobs` over the anchors matching `indeed\.com.*jk=`. -/
def parse_indeed_jobs (links : List Link) (email_date : String) : List Job :=
  parse_indeed_loop email_date links []

end LocalApp

namespace Handler

/-- A job dict as built by `functions/email_scanner/handler.py`. -/
structure Job where
  job_id : String
  title : String
  company : String
  location : String
  url : String
  source : String
  email_date : String
  raw_text : String
  status : String
  score : Int
deriving DecidableEq

/-- Loop body of the Lambda `parse_linkedin_jobs`; this copy splits the parent
text on the genuine middle dot `"·"`. -/
def parse_linkedin_loop (email_date : String) : List Link → List String → List Job
  | [], _ => []
  | link :: rest, seen_urls =>
    let url := link.href
    if url ∈ seen_urls then parse_linkedin_loop email_date rest seen_urls
    else
      let seen_urls := url :: seen_urls
      let title := link.headText.getD link.fullText
      if title.length < 3 then parse_linkedin_loop email_date rest seen_urls
      else
        let cl :=
          match link.parent with
          | none => ("", "", title)
          | some p =>
            let parts := pySplit "·" p.textSpace
            (if parts.length ≥ 2 then pyTake 100 (pyStrip (parts.getD 1 "")) else "",
             if parts.length ≥ 3 then pyTake 100 (pyStrip (parts.getD 2 "")) else "",
             p.textSpace)
        { job_id := generate_job_id url title cl.1, title := pyTake 200 title,
          company := cl.1, location := cl.2.1, url := url, source := "linkedin",
          email_date := email_date, raw_text := pyTake 1000 cl.2.2,
          status := "new", score := 0 } ::
          parse_linkedin_loop email_date rest seen_urls

/-- The Lambda `parse_linkedin_jobs`. -/
def parse_linkedin_jobs (links : List Link) (email_date : String) : List Job :=
  parse_linkedin_loop email_date links []

/-- Loop body of the Lambda `parse_indeed_jobs`
(`email_scanner/handler.py` lines 132-178). -/
def parse_indeed_loop (email_date : String) : List Link → List String → List Job
  | [], _ => []
  | link :: rest, seen_urls =>
    let url := link.href
    if url ∈ seen_urls then parse_indeed_loop email_date rest seen_urls
    else
      let seen_urls := url :: seen_urls
      let title := link.fullText
      if title.length < 3 then parse_indeed_loop email_date rest seen_urls
      else
        let cl :=
          match link.parent with
          | none => ("", "", title)
          | some p =>
            let lines := (p.rawLines.map pyStrip).filter (fun l => !(l == ""))
            (if lines.length ≥ 2 then pyTake 100 (lines.getD 1 "") else "",
             if lines.length ≥ 3 then pyTake 100 (lines.getD 2 "") else "",
             p.textSpace)
        { job_id := generate_job_id url title cl.1, title := pyTake 200 title,
          company := cl.1, location := cl.2.1, url := url, source := "indeed",
          email_date := email_date, raw_text := pyTake 1000 cl.2.2,
          status := "new", score := 0 } ::
          parse_indeed_loop email_date rest seen_urls

/-- The Lambda `parse_indeed_jobs` over anchors matching
`indeed\.com.*jk=|indeed\.com.*vjk=`. -/
def parse_indeed_jobs (links : List Link) (email_date : String) : List Job :=
  parse_indeed_loop email_date links []

end Handler

namespace JobAnalyzer

/-- The `JobListing` dataclass of `job_analyzer.py`. -/
structure JobListing where
  title : String
  company : String
  location : String
  description : String
  url : String
  source : String
  email_date : String
  raw_text : String
deriving DecidableEq

/-- Loop body of `JobParser.parse_linkedin_email` (`job_analyzer.py` lines
162-209). This copy also splits on the mojibake separator `"¬∑"`, and its
`raw_text` is stored WITHOUT any length clamp. -/
def parse_linkedin_loop (now : String) : List Link → List String → List JobListing
  | [], _ => []
  | link :: rest, seen_urls =>
    let url := link.href
    if url ∈ seen_urls then parse_linkedin_loop now rest seen_urls
    else
      let seen_urls := url :: seen_urls
      let title := link.headText.getD link.fullText
      if title.length < 3 then parse_linkedin_loop now rest seen_urls
      else
        let cl :=
          match link.parent with
          | none => ("", "", title)
          | some p =>
            let parts := pySplit "¬∑" p.textSpace
            (if parts.length ≥ 2 then pyStrip (parts.getD 1 "") else "",
             if parts.length ≥ 2 then
               (if parts.length > 2 then pyStrip (parts.getD 2 "") else "")
             else "",
             p.textSpace)
        { title := pyTake 200 title, company := pyTake 100 cl.1,
          location := pyTake 100 cl.2.1, description := "", url := url,
          source := "linkedin", email_date := now, raw_text := cl.2.2 } ::
          parse_linkedin_loop now rest seen_urls

/-- `JobParser.parse_linkedin_email`. -/
def parse_linkedin_email (links : List Link) (now : String) : List JobListing :=
  parse_linkedin_loop now links []

/-- Loop body of `JobParser.parse_indeed_email` (`job_analyzer.py` lines
212-256); `raw_text` is stored WITHOUT any length clamp. -/
def parse_indeed_loop (now : String) : List Link → List String → List JobListing
  | [], _ => []
  | link :: rest, seen_urls =>
    let url := link.href
    if url ∈ seen_urls then parse_indeed_loop now rest seen_urls
    else
      let seen_urls := url :: seen_urls
      let title := link.fullText
      if title.length < 3 then parse_indeed_loop now rest seen_urls
      else
        let cl :=
          match link.parent with
          | none => ("", "", title)
          | some p =>
            let lines := (p.rawLines.map pyStrip).filter (fun l => !(l == ""))
            (if lines.length ≥ 2 then lines.getD 1 "" else "",
             if lines.length ≥ 3 then lines.getD 2 "" else "",
             p.textSpace)
        { title := pyTake 200 title, company := pyTake 100 cl.1,
          location := pyTake 100 cl.2.1, description := "", url := url,
          source := "indeed", email_date := now, raw_text := cl.2.2 } ::
          parse_indeed_loop now rest seen_urls

/-- `JobParser.parse_indeed_email`. -/
def parse_indeed_email (links : List Link) (now : String) : List JobListing :=
  parse_indeed_loop now links []

end JobAnalyzer

namespace AppParsers

/-- Modelled from the spec: `clean_job_url` of `app/parsers/base.py`, which is
not present under `src/` — "strips known tracking query parameters and
fragment identifiers while preserving the job-identifying path segment".
Drops the fragment and any `utm_`-prefixed query parameters. -/
def clean_job_url (url : String) : String :=
  let noFrag := (pySplit "#" url).headD url
  let parts := pySplit "?" noFrag
  let base := parts.headD noFrag
  let query := String.intercalate "?" parts.tail
  let kept := (pySplit "&" query).filter (fun p => !("utm_".data.isPrefixOf p.data) && !(p == ""))
  if kept.isEmpty then base else base ++ "?" ++ String.intercalate "&" kept

/-- Modelled from the spec: `clean_text_field` of `app/parsers/base.py`, which
is not present under `src/` — "collapses runs of whitespace to single spaces
and trims". -/
def clean_text_field (s : String) : String := collapseWs s

/-- ASCII decimal digit (the `\d` class of the rating-line pattern). -/
def isDigitChar (c : Char) : Bool := '0' ≤ c && c ≤ '9'

/-- All suffixes of `l` reachable by removing zero or more leading characters
satisfying `p` (the backtracking choices of a greedy character-class star). -/
def dropsUpTo (p : Char → Bool) : List Char → List (List Char)
  | [] => [[]]
  | c :: cs => (c :: cs) :: (if p c then dropsUpTo p cs else [])

/-- `\.?\d*\s*\d` matched at the start of `l` (rest unconstrained). -/
def ratingTail (l : List Char) : Bool :=
  let afterDot := match l with
    | '.' :: cs => [l, cs]
    | _ => [l]
  afterDot.any (fun l1 =>
    (dropsUpTo isDigitChar l1).any (fun l2 =>
      (dropsUpTo (fun c => c.isWhitespace) l2).any (fun l3 =>
        match l3 with
        | c :: _ => isDigitChar c
        | [] => false)))

/-- `re.match(r'^\d+\.?\d*\s*\d', line)` as a boolean: the rating-line test of
`IndeedParser.parse`. -/
def isRatingLine (s : String) : Bool :=
  match s.data with
  | c :: cs => isDigitChar c && (dropsUpTo isDigitChar cs).any ratingTail
  | [] => false

/-- The denylist of `IndeedParser.parse`. -/
def exclude_keywords : List String :=
  ["unsubscribe", "help", "view all", "see all", "homepage",
   "messages", "notifications", "easily apply", "responsive employer"]

/-- A job dict as built by `app/parsers/indeed.py`. -/
structure Job where
  job_id : String
  title : String
  company : String
  location : String
  url : String
  source : String
  raw_text : String
  created_at : String
  email_date : String
deriving DecidableEq

/-- The company/location scan of `IndeedParser.parse`: first non-rating line
containing the title (with a successor line) starts the window; the company is
the first later line within three that is not a rating line and has no `$`;
the location is the first line within two after that matching the remote /
comma / state-code heuristic. -/
def indeedCompanyLoc (lines : List String) (title : String) : String × String :=
  match (List.range lines.length).find? (fun i =>
      !isRatingLine (lines.getD i "") && containsSub title (lines.getD i "") &&
      decide (i + 1 < lines.length)) with
  | none => ("", "")
  | some i =>
    match (List.range' (i + 1) (min (i + 4) lines.length - (i + 1))).find? (fun j =>
        !isRatingLine (lines.getD j "") && !containsSub "$" (lines.getD j "")) with
    | none => ("", "")
    | some j =>
      let company := pyTake 100 (lines.getD j "")
      match (List.range' (j + 1) (min (j + 3) lines.length - (j + 1))).find? (fun k =>
          containsSub "remote" (pyLower (lines.getD k "")) ||
          containsSub "," (lines.getD k "") ||
          ["CA", "NY", "TX", "FL"].any (fun st => containsSub st (lines.getD k ""))) with
      | none => (company, "")
      | some k => (company, pyTake 100 (lines.getD k ""))

/-- Loop body of `IndeedParser.parse` (`app/parsers/indeed.py`). -/
def indeedLoop (email_date : String) : List Link → List String → List Job
  | [], _ => []
  | link :: rest, seen =>
    let url := clean_job_url link.href
    if url = "" ∨ url ∈ seen then indeedLoop email_date rest seen
    else
      let full_text := collapseWs link.fullText
      if exclude_keywords.any (fun kw => containsSub kw (pyLower full_text)) then
        indeedLoop email_date rest seen
      else if full_text.length < 5 then indeedLoop email_date rest seen
      else
        let seen := url :: seen
        let cl :=
          match link.parent with
          | none => ("", "", full_text)
          | some p =>
            let lines := (p.rawLines.map pyStrip).filter (fun l : String => decide (2 < l.length))
            let co := indeedCompanyLoc lines full_text
            (co.1, co.2, pyTake 1000 (String.intercalate " " (lines.take 6)))
        let title := clean_text_field full_text
        let company := if cl.1 ≠ "" then clean_text_field cl.1 else "Unknown"
        let location := clean_text_field cl.2.1
        { job_id := generate_job_id url title company, title := pyTake 200 title,
          company := pyTake 100 company, location := pyTake 100 location, url := url,
          source := "indeed", raw_text := cl.2.2, created_at := email_date,
          email_date := email_date } ::
          indeedLoop email_date rest seen

/-- `IndeedParser.parse` over the anchors matching
`indeed\.com.*(jk=|vjk=)[a-f0-9]+`. -/
def indeedParse (links : List Link) (email_date : String) : List Job :=
  indeedLoop email_date links []

end AppParsers

namespace AppParsers

/-- An email as the two views `parse_email` needs: the raw HTML string
(scanned by `detect_source`) and the anchor elements a parser extracts. -/
structure EmailHtml where
  raw : String
  links : List Link
deriving DecidableEq

/-- The ordered marker table of `detect_source` (`app/parsers/__init__.py`). -/
def detectPatterns : List (String × String) :=
  [("linkedin.com/jobs/view", "linkedin"),
   ("linkedin.com/comm/jobs", "linkedin"),
   ("indeed.com/viewjob", "indeed"),
   ("indeed.com/rc/clk", "indeed"),
   ("greenhouse.io", "greenhouse"),
   ("boards.greenhouse.io", "greenhouse"),
   ("wellfound.com", "wellfound"),
   ("angel.co", "wellfound")]

/-- `detect_source`: first marker found in the lowercased content, in table
order; `none` when no marker matches. -/
def detect_source (html : String) : Option String :=
  (detectPatterns.find? (fun pr => containsSub pr.1 (pyLower html))).map Prod.snd

/-- The keys of `PARSER_REGISTRY`. -/
def PARSER_REGISTRY : List String :=
  ["linkedin", "indeed", "greenhouse", "wellfound", "weworkremotely"]

/-- Generic card-link extraction: title from the anchor's first
heading/strong/span descendant (else its full text), enclosing block split on
the middle-dot separator into `[title, company, location, ...]` segments. -/
def cardLinkLoop (src email_date : String) : List Link → List String → List Job
  | [], _ => []
  | link :: rest, seen =>
    let url := link.href
    if url ∈ seen then cardLinkLoop src email_date rest seen
    else
      let seen := url :: seen
      let title := link.headText.getD link.fullText
      if title.length < 3 then cardLinkLoop src email_date rest seen
      else
        let cl :=
          match link.parent with
          | none => ("", "", title)
          | some p =>
            let parts := pySplit "·" p.textSpace
            (if parts.length ≥ 2 then pyTake 100 (pyStrip (parts.getD 1 "")) else "",
             if parts.length ≥ 3 then pyTake 100 (pyStrip (parts.getD 2 "")) else "",
             p.textSpace)
        { job_id := generate_job_id url title cl.1, title := pyTake 200 title,
          company := cl.1, location := cl.2.1, url := url, source := src,
          raw_text := pyTake 1000 cl.2.2, created_at := email_date,
          email_date := email_date } ::
          cardLinkLoop src email_date rest seen

/-- Modelled from the spec: `LinkedInParser.parse` of `app/parsers/linkedin.py`,
which is not present under `src/` — card-link extraction with a middle-dot
separator producing `[title, company, location, ...]` segments. -/
def linkedinParseM (links : List Link) (email_date : String) : List Job :=
  cardLinkLoop "linkedin" email_date links []

/-- Modelled from the spec: `GreenhouseParser.parse` of
`app/parsers/greenhouse.py`, which is not present under `src/` —
"domain-specific anchor + container extraction analogous to the above". -/
def greenhouseParseM (links : List Link) (email_date : String) : List Job :=
  cardLinkLoop "greenhouse" email_date links []

/-- Modelled from the spec: `WellfoundParser.parse` of
`app/parsers/wellfound.py`, which is not present under `src/` —
"domain-specific anchor + container extraction analogous to the above". -/
def wellfoundParseM (links : List Link) (email_date : String) : List Job :=
  cardLinkLoop "wellfound" email_date links []

/-- Modelled from the spec: `WeWorkRemotelyParser.parse` of
`app/parsers/weworkremotely.py`, which is not present under `src/` — a feed
source; on email HTML it finds no source-recognizable content and "may return
an empty list". `detect_source` never selects it. -/
def wwrEmailParseM (_links : List Link) (_email_date : String) : List Job := []

/-- `parse_email` (`app/parsers/__init__.py`): resolve the source from the
hint or the detector; on failure log and return `[]`; otherwise look the
source up in the registry (unknown sources also log and return `[]`) and run
the parser. -/
def parse_email (h : EmailHtml) (email_date : String) (source : Option String) :
    List Job :=
  let src := match source with
    | some s => some s
    | none => detect_source h.raw
  match src with
  | none => []
  | some s =>
    if s = "linkedin" then linkedinParseM h.links email_date
    else if s = "indeed" then indeedParse h.links email_date
    else if s = "greenhouse" then greenhouseParseM h.links email_date
    else if s = "wellfound" then wellfoundParseM h.links email_date
    else if s = "weworkremotely" then wwrEmailParseM h.links email_date
    else []

end AppParsers

namespace Wwr

/-- An ElementTree element as the WWR fetcher reads it: its `.text` and its
number of child elements. Truthiness of an `Element` is `len(children) != 0`,
which the guard `if not title_elem or not link_elem:` relies on. -/
structure XmlElem where
  text : Option String
  childCount : Nat
deriving DecidableEq

/-- One `<item>` of a WWR RSS feed, as the four elements `find` returns. -/
structure RssItem where
  titleE : Option XmlElem
  linkE : Option XmlElem
  descE : Option XmlElem
  pubDateE : Option XmlElem
deriving DecidableEq

/-- A job dict as built by `local_app.fetch_wwr_jobs`. -/
structure Job where
  job_id : String
  title : String
  company : String
  location : String
  url : String
  source : String
  raw_text : String
  description : String
  created_at : String
deriving DecidableEq

/-- Python falsity of `item.find(tag)`: `None`, or an `Element` with no
children (ElementTree element truthiness). -/
def pyFalsyElem : Option XmlElem → Bool
  | none => true
  | some e => e.childCount == 0

/-- The date guard of the per-item loop: a parsed publish date older than the
cutoff drops the item (`continue`); a surviving parse stamps the item with the
parsed time, and a missing/unparseable date falls back to `now` (the bare
`except: pass` keeps the default). -/
def dateGate (dtOpt : Option Int) (cutoff now : Int) : Option Int :=
  match dtOpt with
  | some dt => if dt < cutoff then none else some dt
  | none => some now

/-- Body of the per-item loop of `fetch_wwr_jobs`. `parsedate` stands for
`email.utils.parsedate_to_datetime` (`none` = raised, caught by the bare
`except`), `htmlStrip` for BeautifulSoup text extraction on the description;
times are seconds. -/
def itemJob (parsedate : String → Option Int) (htmlStrip : String → String)
    (cutoff now : Int) (item : RssItem) : Option Job :=
  if pyFalsyElem item.titleE || pyFalsyElem item.linkE then none
  else
    let title := (item.titleE.bind XmlElem.text).getD ""
    let url := (item.linkE.bind XmlElem.text).getD ""
    let desc0 := (item.descE.bind XmlElem.text).getD ""
    let parts := pySplit ":" title
    let ct :=
      if title.data.contains ':' then
        (pyStrip (parts.headD ""), pyStrip (String.intercalate ":" parts.tail))
      else ("", title)
    let dtOpt : Option Int :=
      match item.pubDateE with
      | some e =>
        match e.text with
        | some t => if t ≠ "" then parsedate t else none
        | none => none
      | none => none
    (dateGate dtOpt cutoff now).map
      (fun ts => mkJob ct.1 ct.2 url desc0 (toString ts) htmlStrip title)
where
  /-- Assemble the job dict once the date guard has passed. -/
  mkJob (company job_title url desc0 pub_date : String)
      (htmlStrip : String → String) (title : String) : Job :=
    let description := if desc0 ≠ "" then pyTake 2000 (htmlStrip desc0) else desc0
    { job_id := generate_job_id url job_title company,
      title := pyTake 200 job_title, company := pyTake 100 company,
      location := "Remote", url := url, source := "weworkremotely",
      raw_text := if description ≠ "" then description else title,
      description := description, created_at := pub_date }

/-- `local_app.fetch_wwr_jobs`: iterate the configured feeds (a `none` feed is
a fetch/parse exception, caught and logged), filter items through the guards
and the lookback cutoff `now - days_back` days. -/
def fetch_wwr_jobs (feeds : List (Option (List RssItem)))
    (parsedate : String → Option Int) (htmlStrip : String → String)
    (now : Int) (days_back : Nat) : List Job :=
  let cutoff : Int := now - (days_back : Int) * 86400
  (feeds.map (fun f =>
    match f with
    | none => []
    | some items => items.filterMap (itemJob parsedate htmlStrip cutoff now))).flatten

end Wwr

/-! ## The persistent store and the insert-if-absent merge -/

/-- First-match lookup in an association-list store keyed by job id. -/
def dbLookup {V : Type} : List (String × V) → String → Option V
  | [], _ => none
  | (k, v) :: rest, key => if k = key then some v else dbLookup rest key

/-- The shared merge loop: for each job, query the store by id; insert only
when absent, counting inserts; leave present records untouched. -/
def mergeLoop {J V : Type} (key : J → String) (mk : J → V) :
    List J → List (String × V) → Nat → List (String × V) × Nat
  | [], db, n => (db, n)
  | j :: rest, db, n =>
    if (dbLookup db (key j)).isSome then mergeLoop key mk rest db n
    else mergeLoop key mk rest (db ++ [(key j, mk j)]) (n + 1)

namespace LocalApp

/-- A row of the SQLite `jobs` table; columns omitted by an INSERT take the
schema defaults (`status` `'new'`, `score` `0`, the rest NULL). -/
structure StoredJob where
  title : String
  company : String
  location : String
  url : String
  source : String
  status : String
  score : Int
  analysis : Option String
  cover_letter : Option String
  notes : Option String
  raw_text : String
  description : Option String
  created_at : String
  updated_at : String
deriving DecidableEq

/-- The row inserted by `api_scan` for a new job (omitted columns default). -/
def mkScanStored (now : String) (j : Job) : StoredJob :=
  { title := j.title, company := j.company, location := j.location, url := j.url,
    source := j.source, status := "new", score := 0, analysis := none,
    cover_letter := none, notes := none, raw_text := j.raw_text,
    description := none, created_at := j.created_at, updated_at := now }

/-- The storage loop of `api_scan` (`local_app.py`): insert-if-absent per
job id, returning the updated store and the `new` count. -/
def api_scan_merge (jobs : List Job) (now : String)
    (db : List (String × StoredJob)) : List (String × StoredJob) × Nat :=
  mergeLoop (fun j => j.job_id) (mkScanStored now) jobs db 0

end LocalApp

namespace Handler

/-- The storage loop of `lambda_handler` (`email_scanner/handler.py`):
`put_job` when `job_exists` is false, counting stored jobs. -/
def lambda_merge (jobs : List Job) (db : List (String × Job)) :
    List (String × Job) × Nat :=
  mergeLoop (fun j => j.job_id) (fun j => j) jobs db 0

end Handler

namespace LocalApp

/-- A `/api/capture` request body: `data.get(k, default)` reads each key. -/
structure CaptureReq where
  urlF : Option String
  titleF : Option String
  companyF : Option String
  locationF : Option String
  descriptionF : Option String
  sourceF : Option String
deriving DecidableEq

/-- The response of `/api/capture`. -/
inductive CapResp where
  | badRequest
  | updated (job_id : String)
  | created (job_id : String)
deriving DecidableEq

/-- The enrichment UPDATE of `api_capture`: set description/raw_text/updated_at
only where the stored description is NULL or empty. -/
def updateIfBlankDesc (db : List (String × StoredJob)) (job_id desc raw now : String) :
    List (String × StoredJob) :=
  db.map (fun kv =>
    if kv.1 = job_id ∧ (kv.2.description = none ∨ kv.2.description = some "") then
      (kv.1, { kv.2 with description := some desc, raw_text := raw, updated_at := now })
    else kv)

/-- `api_capture` (`local_app.py`): read fields with defaults, auto-detect the
source from the URL, reject empty url/title with HTTP 400 before touching the
store, then insert-if-absent / enrich-if-blank. -/
def api_capture (d : CaptureReq) (now : String) (db : List (String × StoredJob)) :
    CapResp × List (String × StoredJob) :=
  let url := d.urlF.getD ""
  let title := d.titleF.getD ""
  let company := d.companyF.getD ""
  let location := d.locationF.getD "Remote"
  let description := d.descriptionF.getD ""
  let source0 := d.sourceF.getD "extension"
  let source :=
    if containsSub "linkedin.com" url then "linkedin"
    else if containsSub "indeed.com" url then "indeed"
    else if containsSub "weworkremotely.com" url then "weworkremotely"
    else if containsSub "greenhouse.io" url then "greenhouse"
    else if containsSub "lever.co" url then "lever"
    else if containsSub "glassdoor.com" url then "glassdoor"
    else if containsSub "wellfound.com" url || containsSub "angel.co" url then "wellfound"
    else source0
  if url = "" ∨ title = "" then (CapResp.badRequest, db)
  else
    let job_id := generate_job_id url title company
    match dbLookup db job_id with
    | some _ =>
      (CapResp.updated job_id,
       updateIfBlankDesc db job_id (pyTake 5000 description) (pyTake 2000 description) now)
    | none =>
      (CapResp.created job_id,
       db ++ [(job_id,
         { title := pyTake 200 title, company := pyTake 100 company,
           location := pyTake 100 location, url := url, source := source,
           status := "new", score := 0, analysis := none, cover_letter := none,
           notes := none, raw_text := pyTake 2000 description,
           description := some (pyTake 5000 description),
           created_at := now, updated_at := now })])

end LocalApp

/-! ## Basic facts about the string primitives -/

/-- A Python slice `s[:n]` has length at most `n`. -/
theorem pyTake_length_le (n : Nat) (s : String) : (pyTake n s).length ≤ n := by
  show (s.data.take n).length ≤ n
  rw [List.length_take]
  exact Nat.min_le_left _ _

/-- A string is empty iff its character list is. -/
theorem str_eq_empty_iff (s : String) : s = "" ↔ s.data = [] := by
  rw [String.ext_iff]

/-- The hex digest of any message has 64 characters. -/
theorem hexdigest_length (msg : List Nat) : (Sha256.hexdigest msg).length = 64 := by
  show (Sha256.hsHex (Sha256.sha256Words msg)).length = 64
  simp [Sha256.hsHex, Sha256.wordHex]

/-- A job id is always exactly 16 characters. -/
theorem generate_job_id_length (u t c : String) : (generate_job_id u t c).length = 16 := by
  show ((Sha256.hexdigest (Sha256.utf8Str (pyLower (u ++ ":" ++ t ++ ":" ++ c)))).data.take 16).length = 16
  rw [List.length_take]
  have h := hexdigest_length (Sha256.utf8Str (pyLower (u ++ ":" ++ t ++ ":" ++ c)))
  rw [show (Sha256.hexdigest (Sha256.utf8Str (pyLower (u ++ ":" ++ t ++ ":" ++ c)))).length
        = (Sha256.hexdigest (Sha256.utf8Str (pyLower (u ++ ":" ++ t ++ ":" ++ c)))).data.length from rfl] at h
  rw [h]
  decide

/-- Claim C2: `generate_job_id` is a pure deterministic function of
`(url, title, company)`: it lowercases `url + ":" + title + ":" + company`,
applies SHA-256, and returns exactly the first 16 hex characters of the
digest; equal argument triples always yield the byte-for-byte identical id. -/
theorem c2_generate_job_id_pure (u t c u' t' c' : String)
    (hu : u = u') (ht : t = t') (hc : c = c') :
    generate_job_id u t c = generate_job_id u' t' c' ∧
    (generate_job_id u t c).length = 16 ∧
    generate_job_id u t c =
      pyTake 16 (Sha256.hexdigest (Sha256.utf8Str (pyLower (u ++ ":" ++ t ++ ":" ++ c)))) :=
  ⟨by rw [hu, ht, hc], generate_job_id_length u t c, rfl⟩

/-- Witness for C2 at the concrete triple `("u","t","c")`. -/
theorem c2_generate_job_id_pure_witness :
    ("u" : String) = "u" ∧
    (generate_job_id "u" "t" "c" = generate_job_id "u" "t" "c" ∧
     (generate_job_id "u" "t" "c").length = 16 ∧
     generate_job_id "u" "t" "c" =
       pyTake 16 (Sha256.hexdigest (Sha256.utf8Str (pyLower ("u" ++ ":" ++ "t" ++ ":" ++ "c"))))) :=
  ⟨rfl, c2_generate_job_id_pure "u" "t" "c" "u" "t" "c" rfl rfl rfl⟩

/-! ## Merge-loop lemmas (Claim C1) -/

/-- A key found in the store is still found, with the same record, after
appending rows. -/
theorem dbLookup_append_of_some {V : Type} {db : List (String × V)} {k : String} {v : V}
    (h : dbLookup db k = some v) (l : List (String × V)) :
    dbLookup (db ++ l) k = some v := by
  induction db with
  | nil => cases h
  | cons kv rest ih =>
    obtain ⟨k1, v1⟩ := kv
    by_cases hk : k1 = k
    · simp only [dbLookup, if_pos hk] at h
      simp only [List.cons_append, dbLookup, if_pos hk]
      exact h
    · simp only [dbLookup, if_neg hk] at h
      simp only [List.cons_append, dbLookup, if_neg hk]
      exact ih h

/-- Appending a row for an absent key makes it found. -/
theorem dbLookup_append_self {V : Type} {db : List (String × V)} {k : String}
    (h : dbLookup db k = none) (v : V) : dbLookup (db ++ [(k, v)]) k = some v := by
  induction db with
  | nil => simp [dbLookup]
  | cons kv rest ih =>
    obtain ⟨k1, v1⟩ := kv
    by_cases hk : k1 = k
    · simp only [dbLookup, if_pos hk] at h
      cases h
    · simp only [dbLookup, if_neg hk] at h
      simp only [List.cons_append, dbLookup, if_neg hk]
      exact ih h

/-- The merge loop never changes or removes an existing record. -/
theorem mergeLoop_preserves {J V : Type} (key : J → String) (mk : J → V)
    (jobs : List J) (db : List (String × V)) (n : Nat) {k : String} {v : V}
    (h : dbLookup db k = some v) :
    dbLookup (mergeLoop key mk jobs db n).1 k = some v := by
  induction jobs generalizing db n with
  | nil => simpa [mergeLoop] using h
  | cons j rest ih =>
    simp only [mergeLoop]
    by_cases hj : (dbLookup db (key j)).isSome
    · rw [if_pos hj]
      exact ih db n h
    · rw [if_neg hj]
      exact ih _ _ (dbLookup_append_of_some h _)

/-- After the merge loop, every processed job's id is present in the store. -/
theorem mergeLoop_mem_isSome {J V : Type} (key : J → String) (mk : J → V)
    (jobs : List J) (db : List (String × V)) (n : Nat) {j : J} (hj : j ∈ jobs) :
    (dbLookup (mergeLoop key mk jobs db n).1 (key j)).isSome := by
  induction jobs generalizing db n with
  | nil => cases hj
  | cons a rest ih =>
    simp only [mergeLoop]
    rcases List.mem_cons.mp hj with h1 | h2
    · subst h1
      by_cases ha : (dbLookup db (key j)).isSome
      · rw [if_pos ha]
        obtain ⟨v, hv⟩ := Option.isSome_iff_exists.mp ha
        rw [mergeLoop_preserves key mk rest db n hv]
        rfl
      · rw [if_neg ha]
        have hnone : dbLookup db (key j) = none := Option.not_isSome_iff_eq_none.mp ha
        rw [mergeLoop_preserves key mk rest _ _ (dbLookup_append_self hnone (mk j))]
        rfl
    · by_cases ha : (dbLookup db (key a)).isSome
      · rw [if_pos ha]
        exact ih db n h2
      · rw [if_neg ha]
        exact ih _ _ h2

/-- When every job's id is already present, the merge loop is a no-op that
inserts nothing. -/
theorem mergeLoop_noop {J V : Type} (key : J → String) (mk : J → V)
    (jobs : List J) (db : List (String × V)) (n : Nat)
    (h : ∀ j ∈ jobs, (dbLookup db (key j)).isSome) :
    mergeLoop key mk jobs db n = (db, n) := by
  induction jobs with
  | nil => rfl
  | cons j rest ih =>
    simp only [mergeLoop]
    rw [if_pos (h j (List.mem_cons_self j rest))]
    exact ih (fun x hx => h x (List.mem_cons_of_mem j hx))

/-- A lookup after the merge loop is either unchanged or was absent before. -/
theorem mergeLoop_lookup_or_absent {J V : Type} (key : J → String) (mk : J → V)
    (jobs : List J) (db : List (String × V)) (n : Nat) (k : String) :
    dbLookup (mergeLoop key mk jobs db n).1 k = dbLookup db k ∨
      dbLookup db k = none := by
  cases h : dbLookup db k with
  | none => exact Or.inr rfl
  | some v => exact Or.inl (mergeLoop_preserves key mk jobs db n h)

/-- Claim C1: re-ingesting the same content is a no-op downstream. The second
run of the `api_scan` (resp. `lambda_handler`) storage loop over the same
parsed jobs — even at a later timestamp — inserts zero new records and
returns the store unchanged, and a record present before a run (in particular
its `status`, `score`, `analysis`, `cover_letter` fields) is returned intact
by any lookup afterwards: the merge inserts only when no record with the job
id exists and otherwise leaves the stored record untouched. -/
theorem c1_reingest_idempotent (jobs : List LocalApp.Job) (now now2 : String)
    (db : List (String × LocalApp.StoredJob)) (k : String)
    (hjobs : List Handler.Job) (hdb : List (String × Handler.Job)) (hk : String) :
    LocalApp.api_scan_merge jobs now2 (LocalApp.api_scan_merge jobs now db).1 =
      ((LocalApp.api_scan_merge jobs now db).1, 0) ∧
    (dbLookup (LocalApp.api_scan_merge jobs now db).1 k = dbLookup db k ∨
      dbLookup db k = none) ∧
    Handler.lambda_merge hjobs (Handler.lambda_merge hjobs hdb).1 =
      ((Handler.lambda_merge hjobs hdb).1, 0) ∧
    (dbLookup (Handler.lambda_merge hjobs hdb).1 hk = dbLookup hdb hk ∨
      dbLookup hdb hk = none) := by
  simp only [LocalApp.api_scan_merge, Handler.lambda_merge]
  refine ⟨?_, ?_, ?_, ?_⟩
  · exact mergeLoop_noop _ _ _ _ _ (fun j hj => mergeLoop_mem_isSome _ _ _ _ _ hj)
  · exact mergeLoop_lookup_or_absent _ _ _ _ _ _
  · exact mergeLoop_noop _ _ _ _ _ (fun j hj => mergeLoop_mem_isSome _ _ _ _ _ hj)
  · exact mergeLoop_lookup_or_absent _ _ _ _ _ _

/-! ## Per-call URL dedup lemmas (Claim C4) -/

/-- `local_app.parse_linkedin_jobs` loop invariant: no emitted URL was in the
`seen` set, and the emitted URLs are pairwise distinct. -/
theorem linkedin_loop_urls (d : String) (links : List Link) (seen : List String) :
    (∀ j ∈ LocalApp.parse_linkedin_loop d links seen, j.url ∉ seen) ∧
    ((LocalApp.parse_linkedin_loop d links seen).map (fun j => j.url)).Nodup := by
  induction links generalizing seen with
  | nil =>
    constructor
    · intro j hj
      simp [LocalApp.parse_linkedin_loop] at hj
    · simp [LocalApp.parse_linkedin_loop]
  | cons l rest ih =>
    by_cases hmem : l.href ∈ seen
    · have he : LocalApp.parse_linkedin_loop d (l :: rest) seen =
          LocalApp.parse_linkedin_loop d rest seen := by
        simp only [LocalApp.parse_linkedin_loop]
        rw [if_pos hmem]
      rw [he]
      exact ih seen
    · by_cases htl : (l.headText.getD l.fullText).length < 3
      · have he : LocalApp.parse_linkedin_loop d (l :: rest) seen =
            LocalApp.parse_linkedin_loop d rest (l.href :: seen) := by
          simp only [LocalApp.parse_linkedin_loop]
          rw [if_neg hmem, if_pos htl]
        rw [he]
        obtain ⟨h1, h2⟩ := ih (l.href :: seen)
        exact ⟨fun j hj hs => h1 j hj (List.mem_cons_of_mem _ hs), h2⟩
      · obtain ⟨h1, h2⟩ := ih (l.href :: seen)
        have he : ∃ job : LocalApp.Job, job.url = l.href ∧
            LocalApp.parse_linkedin_loop d (l :: rest) seen =
              job :: LocalApp.parse_linkedin_loop d rest (l.href :: seen) := by
          simp only [LocalApp.parse_linkedin_loop]
          rw [if_neg hmem, if_neg htl]
          exact ⟨_, rfl, rfl⟩
        obtain ⟨job, hurl, he⟩ := he
        rw [he]
        constructor
        · intro j hj
          rcases List.mem_cons.mp hj with h | h
          · subst h
            rw [hurl]
            exact hmem
          · exact fun hs => h1 j h (List.mem_cons_of_mem _ hs)
        · rw [List.map_cons, List.nodup_cons]
          constructor
          · intro hin
            obtain ⟨j, hjmem, hju⟩ := List.mem_map.mp hin
            exact h1 j hjmem (hju.trans hurl ▸ List.mem_cons_self _ _)
          · exact h2

/-- `local_app.parse_indeed_jobs` loop invariant, as for LinkedIn. -/
theorem indeed_loop_urls (d : String) (links : List Link) (seen : List String) :
    (∀ j ∈ LocalApp.parse_indeed_loop d links seen, j.url ∉ seen) ∧
    ((LocalApp.parse_indeed_loop d links seen).map (fun j => j.url)).Nodup := by
  induction links generalizing seen with
  | nil =>
    constructor
    · intro j hj
      simp [LocalApp.parse_indeed_loop] at hj
    · simp [LocalApp.parse_indeed_loop]
  | cons l rest ih =>
    by_cases hmem : l.href ∈ seen
    · have he : LocalApp.parse_indeed_loop d (l :: rest) seen =
          LocalApp.parse_indeed_loop d rest seen := by
        simp only [LocalApp.parse_indeed_loop]
        rw [if_pos hmem]
      rw [he]
      exact ih seen
    · by_cases htl : l.fullText.length < 3
      · have he : LocalApp.parse_indeed_loop d (l :: rest) seen =
            LocalApp.parse_indeed_loop d rest (l.href :: seen) := by
          simp only [LocalApp.parse_indeed_loop]
          rw [if_neg hmem, if_pos htl]
        rw [he]
        obtain ⟨h1, h2⟩ := ih (l.href :: seen)
        exact ⟨fun j hj hs => h1 j hj (List.mem_cons_of_mem _ hs), h2⟩
      · obtain ⟨h1, h2⟩ := ih (l.href :: seen)
        have he : ∃ job : LocalApp.Job, job.url = l.href ∧
            LocalApp.parse_indeed_loop d (l :: rest) seen =
              job :: LocalApp.parse_indeed_loop d rest (l.href :: seen) := by
          simp only [LocalApp.parse_indeed_loop]
          rw [if_neg hmem, if_neg htl]
          exact ⟨_, rfl, rfl⟩
        obtain ⟨job, hurl, he⟩ := he
        rw [he]
        constructor
        · intro j hj
          rcases List.mem_cons.mp hj with h | h
          · subst h
            rw [hurl]
            exact hmem
          · exact fun hs => h1 j h (List.mem_cons_of_mem _ hs)
        · rw [List.map_cons, List.nodup_cons]
          constructor
          · intro hin
            obtain ⟨j, hjmem, hju⟩ := List.mem_map.mp hin
            exact h1 j hjmem (hju.trans hurl ▸ List.mem_cons_self _ _)
          · exact h2

/-- Lambda `parse_linkedin_jobs` loop invariant, as above. -/
theorem handler_linkedin_loop_urls (d : String) (links : List Link) (seen : List String) :
    (∀ j ∈ Handler.parse_linkedin_loop d links seen, j.url ∉ seen) ∧
    ((Handler.parse_linkedin_loop d links seen).map (fun j => j.url)).Nodup := by
  induction links generalizing seen with
  | nil =>
    constructor
    · intro j hj
      simp [Handler.parse_linkedin_loop] at hj
    · simp [Handler.parse_linkedin_loop]
  | cons l rest ih =>
    by_cases hmem : l.href ∈ seen
    · have he : Handler.parse_linkedin_loop d (l :: rest) seen =
          Handler.parse_linkedin_loop d rest seen := by
        simp only [Handler.parse_linkedin_loop]
        rw [if_pos hmem]
      rw [he]
      exact ih seen
    · by_cases htl : (l.headText.getD l.fullText).length < 3
      · have he : Handler.parse_linkedin_loop d (l :: rest) seen =
            Handler.parse_linkedin_loop d rest (l.href :: seen) := by
          simp only [Handler.parse_linkedin_loop]
          rw [if_neg hmem, if_pos htl]
        rw [he]
        obtain ⟨h1, h2⟩ := ih (l.href :: seen)
        exact ⟨fun j hj hs => h1 j hj (List.mem_cons_of_mem _ hs), h2⟩
      · obtain ⟨h1, h2⟩ := ih (l.href :: seen)
        have he : ∃ job : Handler.Job, job.url = l.href ∧
            Handler.parse_linkedin_loop d (l :: rest) seen =
              job :: Handler.parse_linkedin_loop d rest (l.href :: seen) := by
          simp only [Handler.parse_linkedin_loop]
          rw [if_neg hmem, if_neg htl]
          exact ⟨_, rfl, rfl⟩
        obtain ⟨job, hurl, he⟩ := he
        rw [he]
        constructor
        · intro j hj
          rcases List.mem_cons.mp hj with h | h
          · subst h
            rw [hurl]
            exact hmem
          · exact fun hs => h1 j h (List.mem_cons_of_mem _ hs)
        · rw [List.map_cons, List.nodup_cons]
          constructor
          · intro hin
            obtain ⟨j, hjmem, hju⟩ := List.mem_map.mp hin
            exact h1 j hjmem (hju.trans hurl ▸ List.mem_cons_self _ _)
          · exact h2

/-- `IndeedParser.parse` loop invariant: the two denylist skips do not touch
`seen`; an emitted URL (cleaned) was not in `seen`. -/
theorem app_indeed_loop_urls (d : String) (links : List Link) (seen : List String) :
    (∀ j ∈ AppParsers.indeedLoop d links seen, j.url ∉ seen) ∧
    ((AppParsers.indeedLoop d links seen).map (fun j => j.url)).Nodup := by
  induction links generalizing seen with
  | nil =>
    constructor
    · intro j hj
      simp [AppParsers.indeedLoop] at hj
    · simp [AppParsers.indeedLoop]
  | cons l rest ih =>
    by_cases hmem : AppParsers.clean_job_url l.href = "" ∨ AppParsers.clean_job_url l.href ∈ seen
    · have he : AppParsers.indeedLoop d (l :: rest) seen =
          AppParsers.indeedLoop d rest seen := by
        simp only [AppParsers.indeedLoop]
        rw [if_pos hmem]
      rw [he]
      exact ih seen
    · by_cases hex : AppParsers.exclude_keywords.any
          (fun kw => containsSub kw (pyLower (collapseWs l.fullText))) = true
      · have he : AppParsers.indeedLoop d (l :: rest) seen =
            AppParsers.indeedLoop d rest seen := by
          simp only [AppParsers.indeedLoop]
          rw [if_neg hmem, if_pos hex]
        rw [he]
        exact ih seen
      · by_cases hlen : (collapseWs l.fullText).length < 5
        · have he : AppParsers.indeedLoop d (l :: rest) seen =
              AppParsers.indeedLoop d rest seen := by
            simp only [AppParsers.indeedLoop]
            rw [if_neg hmem, if_neg hex, if_pos hlen]
          rw [he]
          exact ih seen
        · obtain ⟨h1, h2⟩ := ih (AppParsers.clean_job_url l.href :: seen)
          have hnot : AppParsers.clean_job_url l.href ∉ seen := fun hs => hmem (Or.inr hs)
          have he : ∃ job : AppParsers.Job, job.url = AppParsers.clean_job_url l.href ∧
              AppParsers.indeedLoop d (l :: rest) seen =
                job :: AppParsers.indeedLoop d rest (AppParsers.clean_job_url l.href :: seen) := by
            simp only [AppParsers.indeedLoop]
            rw [if_neg hmem, if_neg hex, if_neg hlen]
            exact ⟨_, rfl, rfl⟩
          obtain ⟨job, hurl, he⟩ := he
          rw [he]
          constructor
          · intro j hj
            rcases List.mem_cons.mp hj with h | h
            · subst h
              rw [hurl]
              exact hnot
            · exact fun hs => h1 j h (List.mem_cons_of_mem _ hs)
          · rw [List.map_cons, List.nodup_cons]
            constructor
            · intro hin
              obtain ⟨j, hjmem, hju⟩ := List.mem_map.mp hin
              exact h1 j hjmem (hju.trans hurl ▸ List.mem_cons_self _ _)
            · exact h2

/-- Lambda `parse_indeed_jobs` loop invariant, as for the others. -/
theorem handler_indeed_loop_urls (d : String) (links : List Link) (seen : List String) :
    (∀ j ∈ Handler.parse_indeed_loop d links seen, j.url ∉ seen) ∧
    ((Handler.parse_indeed_loop d links seen).map (fun j => j.url)).Nodup := by
  induction links generalizing seen with
  | nil =>
    constructor
    · intro j hj
      simp [Handler.parse_indeed_loop] at hj
    · simp [Handler.parse_indeed_loop]
  | cons l rest ih =>
    by_cases hmem : l.href ∈ seen
    · have he : Handler.parse_indeed_loop d (l :: rest) seen =
          Handler.parse_indeed_loop d rest seen := by
        simp only [Handler.parse_indeed_loop]
        rw [if_pos hmem]
      rw [he]
      exact ih seen
    · by_cases htl : l.fullText.length < 3
      · have he : Handler.parse_indeed_loop d (l :: rest) seen =
            Handler.parse_indeed_loop d rest (l.href :: seen) := by
          simp only [Handler.parse_indeed_loop]
          rw [if_neg hmem, if_pos htl]
        rw [he]
        obtain ⟨h1, h2⟩ := ih (l.href :: seen)
        exact ⟨fun j hj hs => h1 j hj (List.mem_cons_of_mem _ hs), h2⟩
      · obtain ⟨h1, h2⟩ := ih (l.href :: seen)
        have he : ∃ job : Handler.Job, job.url = l.href ∧
            Handler.parse_indeed_loop d (l :: rest) seen =
              job :: Handler.parse_indeed_loop d rest (l.href :: seen) := by
          simp only [Handler.parse_indeed_loop]
          rw [if_neg hmem, if_neg htl]
          exact ⟨_, rfl, rfl⟩
        obtain ⟨job, hurl, he⟩ := he
        rw [he]
        constructor
        · intro j hj
          rcases List.mem_cons.mp hj with h | h
          · subst h
            rw [hurl]
            exact hmem
          · exact fun hs => h1 j h (List.mem_cons_of_mem _ hs)
        · rw [List.map_cons, List.nodup_cons]
          constructor
          · intro hin
            obtain ⟨j, hjmem, hju⟩ := List.mem_map.mp hin
            exact h1 j hjmem (hju.trans hurl ▸ List.mem_cons_self _ _)
          · exact h2

/-- `job_analyzer.py` LinkedIn loop invariant, as for the others. -/
theorem ja_linkedin_loop_urls (d : String) (links : List Link) (seen : List String) :
    (∀ j ∈ JobAnalyzer.parse_linkedin_loop d links seen, j.url ∉ seen) ∧
    ((JobAnalyzer.parse_linkedin_loop d links seen).map (fun j => j.url)).Nodup := by
  induction links generalizing seen with
  | nil =>
    constructor
    · intro j hj
      simp [JobAnalyzer.parse_linkedin_loop] at hj
    · simp [JobAnalyzer.parse_linkedin_loop]
  | cons l rest ih =>
    by_cases hmem : l.href ∈ seen
    · have he : JobAnalyzer.parse_linkedin_loop d (l :: rest) seen =
          JobAnalyzer.parse_linkedin_loop d rest seen := by
        simp only [JobAnalyzer.parse_linkedin_loop]
        rw [if_pos hmem]
      rw [he]
      exact ih seen
    · by_cases htl : (l.headText.getD l.fullText).length < 3
      · have he : JobAnalyzer.parse_linkedin_loop d (l :: rest) seen =
            JobAnalyzer.parse_linkedin_loop d rest (l.href :: seen) := by
          simp only [JobAnalyzer.parse_linkedin_loop]
          rw [if_neg hmem, if_pos htl]
        rw [he]
        obtain ⟨h1, h2⟩ := ih (l.href :: seen)
        exact ⟨fun j hj hs => h1 j hj (List.mem_cons_of_mem _ hs), h2⟩
      · obtain ⟨h1, h2⟩ := ih (l.href :: seen)
        have he : ∃ job : JobAnalyzer.JobListing, job.url = l.href ∧
            JobAnalyzer.parse_linkedin_loop d (l :: rest) seen =
              job :: JobAnalyzer.parse_linkedin_loop d rest (l.href :: seen) := by
          simp only [JobAnalyzer.parse_linkedin_loop]
          rw [if_neg hmem, if_neg htl]
          exact ⟨_, rfl, rfl⟩
        obtain ⟨job, hurl, he⟩ := he
        rw [he]
        constructor
        · intro j hj
          rcases List.mem_cons.mp hj with h | h
          · subst h
            rw [hurl]
            exact hmem
          · exact fun hs => h1 j h (List.mem_cons_of_mem _ hs)
        · rw [List.map_cons, List.nodup_cons]
          constructor
          · intro hin
            obtain ⟨j, hjmem, hju⟩ := List.mem_map.mp hin
            exact h1 j hjmem (hju.trans hurl ▸ List.mem_cons_self _ _)
          · exact h2

/-- `job_analyzer.py` Indeed loop invariant, as for the others. -/
theorem ja_indeed_loop_urls (d : String) (links : List Link) (seen : List String) :
    (∀ j ∈ JobAnalyzer.parse_indeed_loop d links seen, j.url ∉ seen) ∧
    ((JobAnalyzer.parse_indeed_loop d links seen).map (fun j => j.url)).Nodup := by
  induction links generalizing seen with
  | nil =>
    constructor
    · intro j hj
      simp [JobAnalyzer.parse_indeed_loop] at hj
    · simp [JobAnalyzer.parse_indeed_loop]
  | cons l rest ih =>
    by_cases hmem : l.href ∈ seen
    · have he : JobAnalyzer.parse_indeed_loop d (l :: rest) seen =
          JobAnalyzer.parse_indeed_loop d rest seen := by
        simp only [JobAnalyzer.parse_indeed_loop]
        rw [if_pos hmem]
      rw [he]
      exact ih seen
    · by_cases htl : l.fullText.length < 3
      · have he : JobAnalyzer.parse_indeed_loop d (l :: rest) seen =
            JobAnalyzer.parse_indeed_loop d rest (l.href :: seen) := by
          simp only [JobAnalyzer.parse_indeed_loop]
          rw [if_neg hmem, if_pos htl]
        rw [he]
        obtain ⟨h1, h2⟩ := ih (l.href :: seen)
        exact ⟨fun j hj hs => h1 j hj (List.mem_cons_of_mem _ hs), h2⟩
      · obtain ⟨h1, h2⟩ := ih (l.href :: seen)
        have he : ∃ job : JobAnalyzer.JobListing, job.url = l.href ∧
            JobAnalyzer.parse_indeed_loop d (l :: rest) seen =
              job :: JobAnalyzer.parse_indeed_loop d rest (l.href :: seen) := by
          simp only [JobAnalyzer.parse_indeed_loop]
          rw [if_neg hmem, if_neg htl]
          exact ⟨_, rfl, rfl⟩
        obtain ⟨job, hurl, he⟩ := he
        rw [he]
        constructor
        · intro j hj
          rcases List.mem_cons.mp hj with h | h
          · subst h
            rw [hurl]
            exact hmem
          · exact fun hs => h1 j h (List.mem_cons_of_mem _ hs)
        · rw [List.map_cons, List.nodup_cons]
          constructor
          · intro hin
            obtain ⟨j, hjmem, hju⟩ := List.mem_map.mp hin
            exact h1 j hjmem (hju.trans hurl ▸ List.mem_cons_self _ _)
          · exact h2

/-- Card-link loop invariant for the spec-modelled app parsers
(LinkedIn/Greenhouse/Wellfound), as for the others. -/
theorem cardlink_loop_urls (s d : String) (links : List Link) (seen : List String) :
    (∀ j ∈ AppParsers.cardLinkLoop s d links seen, j.url ∉ seen) ∧
    ((AppParsers.cardLinkLoop s d links seen).map (fun j => j.url)).Nodup := by
  induction links generalizing seen with
  | nil =>
    constructor
    · intro j hj
      simp [AppParsers.cardLinkLoop] at hj
    · simp [AppParsers.cardLinkLoop]
  | cons l rest ih =>
    by_cases hmem : l.href ∈ seen
    · have he : AppParsers.cardLinkLoop s d (l :: rest) seen =
          AppParsers.cardLinkLoop s d rest seen := by
        simp only [AppParsers.cardLinkLoop]
        rw [if_pos hmem]
      rw [he]
      exact ih seen
    · by_cases htl : (l.headText.getD l.fullText).length < 3
      · have he : AppParsers.cardLinkLoop s d (l :: rest) seen =
            AppParsers.cardLinkLoop s d rest (l.href :: seen) := by
          simp only [AppParsers.cardLinkLoop]
          rw [if_neg hmem, if_pos htl]
        rw [he]
        obtain ⟨h1, h2⟩ := ih (l.href :: seen)
        exact ⟨fun j hj hs => h1 j hj (List.mem_cons_of_mem _ hs), h2⟩
      · obtain ⟨h1, h2⟩ := ih (l.href :: seen)
        have he : ∃ job : AppParsers.Job, job.url = l.href ∧
            AppParsers.cardLinkLoop s d (l :: rest) seen =
              job :: AppParsers.cardLinkLoop s d rest (l.href :: seen) := by
          simp only [AppParsers.cardLinkLoop]
          rw [if_neg hmem, if_neg htl]
          exact ⟨_, rfl, rfl⟩
        obtain ⟨job, hurl, he⟩ := he
        rw [he]
        constructor
        · intro j hj
          rcases List.mem_cons.mp hj with h | h
          · subst h
            rw [hurl]
            exact hmem
          · exact fun hs => h1 j h (List.mem_cons_of_mem _ hs)
        · rw [List.map_cons, List.nodup_cons]
          constructor
          · intro hin
            obtain ⟨j, hjmem, hju⟩ := List.mem_map.mp hin
            exact h1 j hjmem (hju.trans hurl ▸ List.mem_cons_self _ _)
          · exact h2

/-- Claim C4 amended: within one parse invocation, every email parser — the
LinkedIn and Indeed parsers of `local_app.py`, of `email_scanner/handler.py`
and of `job_analyzer.py`, the app `IndeedParser`, and the spec-modelled app
LinkedIn/Greenhouse/Wellfound parsers (plus the spec-modelled WWR email
parser, which finds nothing in email HTML) — tracks the URLs it has emitted
in a `seen` set and returns a list with pairwise-distinct `url` values; only
the WeWorkRemotely RSS fetcher has no such set and can return repeated urls
(see the counterexample). -/
theorem c4_email_parsers_url_nodup (links : List Link) (d : String) :
    ((LocalApp.parse_linkedin_jobs links d).map (fun j => j.url)).Nodup ∧
    ((LocalApp.parse_indeed_jobs links d).map (fun j => j.url)).Nodup ∧
    ((Handler.parse_linkedin_jobs links d).map (fun j => j.url)).Nodup ∧
    ((Handler.parse_indeed_jobs links d).map (fun j => j.url)).Nodup ∧
    ((JobAnalyzer.parse_linkedin_email links d).map (fun j => j.url)).Nodup ∧
    ((JobAnalyzer.parse_indeed_email links d).map (fun j => j.url)).Nodup ∧
    ((AppParsers.indeedParse links d).map (fun j => j.url)).Nodup ∧
    ((AppParsers.linkedinParseM links d).map (fun j => j.url)).Nodup ∧
    ((AppParsers.greenhouseParseM links d).map (fun j => j.url)).Nodup ∧
    ((AppParsers.wellfoundParseM links d).map (fun j => j.url)).Nodup ∧
    ((AppParsers.wwrEmailParseM links d).map (fun j => j.url)).Nodup :=
  ⟨(linkedin_loop_urls d links []).2, (indeed_loop_urls d links []).2,
   (handler_linkedin_loop_urls d links []).2, (handler_indeed_loop_urls d links []).2,
   (ja_linkedin_loop_urls d links []).2, (ja_indeed_loop_urls d links []).2,
   (app_indeed_loop_urls d links []).2,
   (cardlink_loop_urls "linkedin" d links []).2,
   (cardlink_loop_urls "greenhouse" d links []).2,
   (cardlink_loop_urls "wellfound" d links []).2,
   List.nodup_nil⟩

/-! ## Concrete scenario inputs -/

/-- The spec's LinkedIn scenario anchor: href matching the job-view pattern,
title "Senior Backend Engineer", enclosing block text
"Senior Backend Engineer · Acme Corp · Remote". -/
def scenarioLink : Link :=
  { href := "https://www.linkedin.com/comm/jobs/view/123",
    headText := some "Senior Backend Engineer",
    fullText := "Senior Backend Engineer",
    parent := some { textSpace := "Senior Backend Engineer · Acme Corp · Remote",
                     rawLines := [] } }

/-- An Indeed anchor with no enclosing `td`/`div`/`li` block and 1001
characters of link text (realizable as a bare `<a>` element). -/
def longTextLink : Link :=
  { href := "https://indeed.com/viewjob?jk=abc123", headText := none,
    fullText := String.mk (List.replicate 1001 'a'), parent := none }

/-- A LinkedIn anchor whose enclosing block has no middle-dot separator, so
company and location cannot be resolved. -/
def noSepLink : Link :=
  { href := "https://www.linkedin.com/comm/jobs/view/77",
    headText := some "Engineer Role", fullText := "Engineer Role",
    parent := some { textSpace := "Engineer Role at someplace", rawLines := [] } }

/-- The spec's WWR scenario item `<title>Acme Corp: Backend Engineer</title>`,
published recently; both `<title>` and `<link>` are ordinary childless text
elements, as in any real RSS feed. -/
def acmeItem : Wwr.RssItem :=
  { titleE := some { text := some "Acme Corp: Backend Engineer", childCount := 0 },
    linkE := some { text := some "https://weworkremotely.com/jobs/1", childCount := 0 },
    descE := some { text := some "Build backends.", childCount := 0 },
    pubDateE := some { text := some "recent", childCount := 0 } }

/-- A second WWR item, published 10 days before the reference time. -/
def oldItem : Wwr.RssItem :=
  { titleE := some { text := some "Beta LLC: Data Engineer", childCount := 0 },
    linkE := some { text := some "https://weworkremotely.com/jobs/9", childCount := 0 },
    descE := none,
    pubDateE := some { text := some "old", childCount := 0 } }

/-- An adversarial WWR item whose `<title>`/`<link>` elements contain a child
element (so ElementTree truthiness lets it through the guard), with no
pubDate. -/
def childedItem : Wwr.RssItem :=
  { titleE := some { text := some "Acme: Dev", childCount := 1 },
    linkE := some { text := some "https://weworkremotely.com/jobs/2", childCount := 1 },
    descE := none, pubDateE := none }

/-- A date parser for the scenario feeds: "recent" is one day before the
reference time 1000000, "old" is ten days before it. -/
def parsedateFixed : String → Option Int := fun s =>
  if s = "recent" then some 913600
  else if s = "old" then some 136000
  else none

/-- Identity HTML-stripping (the scenario descriptions contain no markup). -/
def htmlStripId : String → String := fun s => s

/-- Claim C3 counterexample: the app Indeed parser emits `longTextLink` with a
`raw_text` of 1001 characters — the `[:1000]` clamp is applied only when an
enclosing block exists, so the bound `len(rawText) ≤ 1000` fails. -/
theorem c3_rawtext_bound_cex :
    (AppParsers.indeedParse [longTextLink] "d").map (fun j => j.raw_text.length) = [1001] ∧
    ¬ (1001 ≤ 1000) := by
  constructor
  · decide
  · decide

/-- Claim C4 counterexample: `fetch_wwr_jobs` has no `seen` set, so a feed
carrying the same item twice yields two records with the same `url` (the
configured WWR feed list overlaps, so repeats are expected in practice). -/
theorem c4_wwr_dup_url_cex :
    ¬ ((Wwr.fetch_wwr_jobs [some [childedItem, childedItem]] parsedateFixed htmlStripId
        1000000 7).map (fun j => j.url)).Nodup := by
  decide

/-- Claim C6: the `<title>`/`<link>` guard of `fetch_wwr_jobs` is
`if not title_elem or not link_elem`, and an ElementTree element with no
children is falsy, so the spec's scenario item — whose colon-split should
yield company "Acme Corp", title "Backend Engineer", location "Remote" — is
skipped and the fetch returns no record at all. -/
theorem c6_wwr_scenario_item_dropped :
    Wwr.fetch_wwr_jobs [some [acmeItem]] parsedateFixed htmlStripId 1000000 7 = [] := by
  decide

/-- Claim C7: with a 7-day window ending at time 1000000, the item published
10 days back is excluded as claimed, but the item published 1 day back —
which the claim says is included — is also dropped by the same element-truthiness
guard: the fetch returns the empty list. -/
theorem c7_wwr_window_unreachable :
    Wwr.fetch_wwr_jobs [some [oldItem, acmeItem]] parsedateFixed htmlStripId 1000000 7 = [] := by
  decide

/-- Claim C8: on the scenario anchor, the Lambda copy of the LinkedIn parser
returns the claimed record (company "Acme Corp", location "Remote"), but
`local_app.py` splits on the mojibake two-character separator `"¬∑"` instead
of `"·"`, so its company and location come back empty. -/
theorem c8_linkedin_scenario_mojibake :
    (Handler.parse_linkedin_jobs [scenarioLink] "d").map
        (fun j => (j.title, j.company, j.location, j.source)) =
      [("Senior Backend Engineer", "Acme Corp", "Remote", "linkedin")] ∧
    (LocalApp.parse_linkedin_jobs [scenarioLink] "d").map
        (fun j => (j.title, j.company, j.location, j.source)) =
      [("Senior Backend Engineer", "", "", "linkedin")] := by
  constructor
  · decide
  · decide

/-- Claim C9 counterexample: the `local_app` LinkedIn parser leaves an
unresolved company as the empty string — not the default "Unknown" — while
the unresolved location degrades to the empty string. -/
theorem c9_company_empty_cex :
    (LocalApp.parse_linkedin_jobs [noSepLink] "d").map (fun j => (j.company, j.location)) =
      [("", "")] ∧
    ("" : String) ≠ "Unknown" := by
  constructor
  · decide
  · decide

/-! ## Source resolution (Claim C5) and capture endpoint (Claim C10) -/

/-- An email body with no registered source marker. -/
def noMarkerHtml : AppParsers.EmailHtml :=
  { raw := "<html><body>hello world</body></html>", links := [] }

/-- An email body recognized as Indeed but containing no job anchors. -/
def emptyIndeedHtml : AppParsers.EmailHtml :=
  { raw := "see indeed.com/viewjob for details", links := [] }

/-- Claim C5 counterexample: an unrecognized source and a successfully parsed
zero-job email produce the *same* return value `[]` — there is no
`UnrecognizedSource` error a caller could distinguish; an unregistered hint
behaves identically. -/
theorem c5_unrecognized_indistinct_cex :
    AppParsers.parse_email noMarkerHtml "d" none = [] ∧
    AppParsers.detect_source noMarkerHtml.raw = none ∧
    AppParsers.parse_email emptyIndeedHtml "d" none = [] ∧
    AppParsers.detect_source emptyIndeedHtml.raw = some "indeed" ∧
    AppParsers.parse_email noMarkerHtml "d" (some "zzz") = [] := by
  refine ⟨?_, ?_, ?_, ?_, ?_⟩ <;> decide

/-- Claim C5 amended: when no hint is supplied and the detector matches no
marker, or the supplied hint is not a registered source, `parse_email` logs a
warning and returns the empty list — the same value as a successful parse
that found zero jobs, so the caller cannot distinguish the two from the
return value. -/
theorem c5_unrecognized_returns_empty (h : AppParsers.EmailHtml) (d s : String)
    (h1 : AppParsers.detect_source h.raw = none)
    (h2 : s ∉ AppParsers.PARSER_REGISTRY) :
    AppParsers.parse_email h d none = [] ∧
    AppParsers.parse_email h d (some s) = [] := by
  constructor
  · simp [AppParsers.parse_email, h1]
  · have hs : s ≠ "linkedin" ∧ s ≠ "indeed" ∧ s ≠ "greenhouse" ∧
        s ≠ "wellfound" ∧ s ≠ "weworkremotely" := by
      simp [AppParsers.PARSER_REGISTRY] at h2
      exact ⟨h2.1, h2.2.1, h2.2.2.1, h2.2.2.2.1, h2.2.2.2.2⟩
    simp [AppParsers.parse_email, hs.1, hs.2.1, hs.2.2.1, hs.2.2.2.1, hs.2.2.2.2]

/-- Witness for C5 at the concrete unrecognized email and hint `"zzz"`. -/
theorem c5_unrecognized_returns_empty_witness :
    AppParsers.detect_source noMarkerHtml.raw = none ∧
    ("zzz" ∉ AppParsers.PARSER_REGISTRY) ∧
    (AppParsers.parse_email noMarkerHtml "d" none = [] ∧
     AppParsers.parse_email noMarkerHtml "d" (some "zzz") = []) :=
  ⟨by decide, by decide,
   c5_unrecognized_returns_empty noMarkerHtml "d" "zzz" (by decide) (by decide)⟩

/-- A capture request with no url at all. -/
def noUrlReq : LocalApp.CaptureReq :=
  { urlF := none, titleF := some "Backend Engineer", companyF := some "Acme",
    locationF := none, descriptionF := none, sourceF := none }

/-- Claim C10: a capture request whose url or title is missing or empty is
rejected with HTTP 400 before any store access: the response is the error and
the job store is returned completely unchanged. -/
theorem c10_capture_rejects_blank (d : LocalApp.CaptureReq) (now : String)
    (db : List (String × LocalApp.StoredJob))
    (h : d.urlF.getD "" = "" ∨ d.titleF.getD "" = "") :
    LocalApp.api_capture d now db = (LocalApp.CapResp.badRequest, db) := by
  simp only [LocalApp.api_capture]
  rw [if_pos h]

/-- Witness for C10 at a concrete url-less request over the empty store. -/
theorem c10_capture_rejects_blank_witness :
    (noUrlReq.urlF.getD "" = "" ∨ noUrlReq.titleF.getD "" = "") ∧
    LocalApp.api_capture noUrlReq "t" [] = (LocalApp.CapResp.badRequest, []) :=
  ⟨Or.inl rfl, c10_capture_rejects_blank noUrlReq "t" [] (Or.inl rfl)⟩

/-! ## Field-bound lemmas (Claim C3) -/

/-- An `if`-guarded Python slice is length-bounded either way. -/
theorem ite_pyTake_length_le (c : Prop) [Decidable c] (n : Nat) (s : String) :
    (if c then pyTake n s else "").length ≤ n := by
  split
  · exact pyTake_length_le _ _
  · exact Nat.zero_le n

/-- The claimed field bounds for a `local_app` email-parser job. -/
def boundsLocal (j : LocalApp.Job) : Prop :=
  j.title.length ≤ 200 ∧ j.company.length ≤ 100 ∧ j.location.length ≤ 100 ∧
    j.raw_text.length ≤ 1000

/-- The title/company/location bounds for an app `IndeedParser` job. -/
def boundsApp (j : AppParsers.Job) : Prop :=
  j.title.length ≤ 200 ∧ j.company.length ≤ 100 ∧ j.location.length ≤ 100

/-- The title/company/location bounds for a WWR job. -/
def boundsWwr (j : Wwr.Job) : Prop :=
  j.title.length ≤ 200 ∧ j.company.length ≤ 100 ∧ j.location.length ≤ 100

/-- Every job of the `local_app` LinkedIn loop satisfies all four bounds. -/
theorem linkedin_loop_bounds (d : String) (links : List Link) (seen : List String) :
    ∀ j ∈ LocalApp.parse_linkedin_loop d links seen, boundsLocal j := by
  induction links generalizing seen with
  | nil =>
    intro j hj
    simp [LocalApp.parse_linkedin_loop] at hj
  | cons l rest ih =>
    intro j hj
    by_cases hmem : l.href ∈ seen
    · rw [show LocalApp.parse_linkedin_loop d (l :: rest) seen =
          LocalApp.parse_linkedin_loop d rest seen from by
        simp only [LocalApp.parse_linkedin_loop]; rw [if_pos hmem]] at hj
      exact ih seen j hj
    · by_cases htl : (l.headText.getD l.fullText).length < 3
      · rw [show LocalApp.parse_linkedin_loop d (l :: rest) seen =
            LocalApp.parse_linkedin_loop d rest (l.href :: seen) from by
          simp only [LocalApp.parse_linkedin_loop]; rw [if_neg hmem, if_pos htl]] at hj
        exact ih _ j hj
      · have he : ∃ job : LocalApp.Job, boundsLocal job ∧
            LocalApp.parse_linkedin_loop d (l :: rest) seen =
              job :: LocalApp.parse_linkedin_loop d rest (l.href :: seen) := by
          simp only [LocalApp.parse_linkedin_loop]
          rw [if_neg hmem, if_neg htl]
          refine ⟨_, ?_, rfl⟩
          cases l.parent with
          | none =>
            exact ⟨pyTake_length_le _ _, Nat.zero_le 100, Nat.zero_le 100,
              pyTake_length_le _ _⟩
          | some p =>
            exact ⟨pyTake_length_le _ _, ite_pyTake_length_le _ _ _,
              ite_pyTake_length_le _ _ _, pyTake_length_le _ _⟩
        obtain ⟨job, hb, he⟩ := he
        rw [he] at hj
        rcases List.mem_cons.mp hj with h | h
        · exact h ▸ hb
        · exact ih _ j h

/-- Every job of the `local_app` Indeed loop satisfies all four bounds. -/
theorem indeed_loop_bounds (d : String) (links : List Link) (seen : List String) :
    ∀ j ∈ LocalApp.parse_indeed_loop d links seen, boundsLocal j := by
  induction links generalizing seen with
  | nil =>
    intro j hj
    simp [LocalApp.parse_indeed_loop] at hj
  | cons l rest ih =>
    intro j hj
    by_cases hmem : l.href ∈ seen
    · rw [show LocalApp.parse_indeed_loop d (l :: rest) seen =
          LocalApp.parse_indeed_loop d rest seen from by
        simp only [LocalApp.parse_indeed_loop]; rw [if_pos hmem]] at hj
      exact ih seen j hj
    · by_cases htl : l.fullText.length < 3
      · rw [show LocalApp.parse_indeed_loop d (l :: rest) seen =
            LocalApp.parse_indeed_loop d rest (l.href :: seen) from by
          simp only [LocalApp.parse_indeed_loop]; rw [if_neg hmem, if_pos htl]] at hj
        exact ih _ j hj
      · have he : ∃ job : LocalApp.Job, boundsLocal job ∧
            LocalApp.parse_indeed_loop d (l :: rest) seen =
              job :: LocalApp.parse_indeed_loop d rest (l.href :: seen) := by
          simp only [LocalApp.parse_indeed_loop]
          rw [if_neg hmem, if_neg htl]
          refine ⟨_, ?_, rfl⟩
          cases l.parent with
          | none =>
            exact ⟨pyTake_length_le _ _, Nat.zero_le 100, Nat.zero_le 100,
              pyTake_length_le _ _⟩
          | some p =>
            exact ⟨pyTake_length_le _ _, ite_pyTake_length_le _ _ _,
              ite_pyTake_length_le _ _ _, pyTake_length_le _ _⟩
        obtain ⟨job, hb, he⟩ := he
        rw [he] at hj
        rcases List.mem_cons.mp hj with h | h
        · exact h ▸ hb
        · exact ih _ j h

/-- Every job of the app `IndeedParser` loop satisfies the three clamps
(title 200, company 100, location 100); `raw_text` is deliberately absent. -/
theorem app_indeed_loop_bounds (d : String) (links : List Link) (seen : List String) :
    ∀ j ∈ AppParsers.indeedLoop d links seen, boundsApp j := by
  induction links generalizing seen with
  | nil =>
    intro j hj
    simp [AppParsers.indeedLoop] at hj
  | cons l rest ih =>
    intro j hj
    by_cases hmem : AppParsers.clean_job_url l.href = "" ∨ AppParsers.clean_job_url l.href ∈ seen
    · rw [show AppParsers.indeedLoop d (l :: rest) seen =
          AppParsers.indeedLoop d rest seen from by
        simp only [AppParsers.indeedLoop]; rw [if_pos hmem]] at hj
      exact ih seen j hj
    · by_cases hex : AppParsers.exclude_keywords.any
          (fun kw => containsSub kw (pyLower (collapseWs l.fullText))) = true
      · rw [show AppParsers.indeedLoop d (l :: rest) seen =
            AppParsers.indeedLoop d rest seen from by
          simp only [AppParsers.indeedLoop]; rw [if_neg hmem, if_pos hex]] at hj
        exact ih seen j hj
      · by_cases hlen : (collapseWs l.fullText).length < 5
        · rw [show AppParsers.indeedLoop d (l :: rest) seen =
              AppParsers.indeedLoop d rest seen from by
            simp only [AppParsers.indeedLoop]; rw [if_neg hmem, if_neg hex, if_pos hlen]] at hj
          exact ih seen j hj
        · have he : ∃ job : AppParsers.Job, boundsApp job ∧
              AppParsers.indeedLoop d (l :: rest) seen =
                job :: AppParsers.indeedLoop d rest (AppParsers.clean_job_url l.href :: seen) := by
            simp only [AppParsers.indeedLoop]
            rw [if_neg hmem, if_neg hex, if_neg hlen]
            exact ⟨_, ⟨pyTake_length_le _ _, pyTake_length_le _ _, pyTake_length_le _ _⟩, rfl⟩
          obtain ⟨job, hb, he⟩ := he
          rw [he] at hj
          rcases List.mem_cons.mp hj with h | h
          · exact h ▸ hb
          · exact ih _ j h

/-- The claimed field bounds for a Lambda email-parser job. -/
def boundsHandler (j : Handler.Job) : Prop :=
  j.title.length ≤ 200 ∧ j.company.length ≤ 100 ∧ j.location.length ≤ 100 ∧
    j.raw_text.length ≤ 1000

/-- All four field bounds for an app-package card-link job. -/
def boundsAppFull (j : AppParsers.Job) : Prop :=
  j.title.length ≤ 200 ∧ j.company.length ≤ 100 ∧ j.location.length ≤ 100 ∧
    j.raw_text.length ≤ 1000

/-- The title/company/location bounds for a `job_analyzer.py` listing
(`raw_text` is stored unclamped there). -/
def boundsJA (j : JobAnalyzer.JobListing) : Prop :=
  j.title.length ≤ 200 ∧ j.company.length ≤ 100 ∧ j.location.length ≤ 100

/-- Every job of the Lambda LinkedIn loop satisfies all four bounds. -/
theorem handler_linkedin_loop_bounds (d : String) (links : List Link) (seen : List String) :
    ∀ j ∈ Handler.parse_linkedin_loop d links seen, boundsHandler j := by
  induction links generalizing seen with
  | nil =>
    intro j hj
    simp [Handler.parse_linkedin_loop] at hj
  | cons l rest ih =>
    intro j hj
    by_cases hmem : l.href ∈ seen
    · rw [show Handler.parse_linkedin_loop d (l :: rest) seen =
          Handler.parse_linkedin_loop d rest seen from by
        simp only [Handler.parse_linkedin_loop]; rw [if_pos hmem]] at hj
      exact ih seen j hj
    · by_cases htl : (l.headText.getD l.fullText).length < 3
      · rw [show Handler.parse_linkedin_loop d (l :: rest) seen =
            Handler.parse_linkedin_loop d rest (l.href :: seen) from by
          simp only [Handler.parse_linkedin_loop]; rw [if_neg hmem, if_pos htl]] at hj
        exact ih _ j hj
      · have he : ∃ job : Handler.Job, boundsHandler job ∧
            Handler.parse_linkedin_loop d (l :: rest) seen =
              job :: Handler.parse_linkedin_loop d rest (l.href :: seen) := by
          simp only [Handler.parse_linkedin_loop]
          rw [if_neg hmem, if_neg htl]
          refine ⟨_, ?_, rfl⟩
          cases l.parent with
          | none =>
            exact ⟨pyTake_length_le _ _, Nat.zero_le 100, Nat.zero_le 100,
              pyTake_length_le _ _⟩
          | some p =>
            exact ⟨pyTake_length_le _ _, ite_pyTake_length_le _ _ _,
              ite_pyTake_length_le _ _ _, pyTake_length_le _ _⟩
        obtain ⟨job, hb, he⟩ := he
        rw [he] at hj
        rcases List.mem_cons.mp hj with h | h
        · exact h ▸ hb
        · exact ih _ j h

/-- Every job of the Lambda Indeed loop satisfies all four bounds. -/
theorem handler_indeed_loop_bounds (d : String) (links : List Link) (seen : List String) :
    ∀ j ∈ Handler.parse_indeed_loop d links seen, boundsHandler j := by
  induction links generalizing seen with
  | nil =>
    intro j hj
    simp [Handler.parse_indeed_loop] at hj
  | cons l rest ih =>
    intro j hj
    by_cases hmem : l.href ∈ seen
    · rw [show Handler.parse_indeed_loop d (l :: rest) seen =
          Handler.parse_indeed_loop d rest seen from by
        simp only [Handler.parse_indeed_loop]; rw [if_pos hmem]] at hj
      exact ih seen j hj
    · by_cases htl : l.fullText.length < 3
      · rw [show Handler.parse_indeed_loop d (l :: rest) seen =
            Handler.parse_indeed_loop d rest (l.href :: seen) from by
          simp only [Handler.parse_indeed_loop]; rw [if_neg hmem, if_pos htl]] at hj
        exact ih _ j hj
      · have he : ∃ job : Handler.Job, boundsHandler job ∧
            Handler.parse_indeed_loop d (l :: rest) seen =
              job :: Handler.parse_indeed_loop d rest (l.href :: seen) := by
          simp only [Handler.parse_indeed_loop]
          rw [if_neg hmem, if_neg htl]
          refine ⟨_, ?_, rfl⟩
          cases l.parent with
          | none =>
            exact ⟨pyTake_length_le _ _, Nat.zero_le 100, Nat.zero_le 100,
              pyTake_length_le _ _⟩
          | some p =>
            exact ⟨pyTake_length_le _ _, ite_pyTake_length_le _ _ _,
              ite_pyTake_length_le _ _ _, pyTake_length_le _ _⟩
        obtain ⟨job, hb, he⟩ := he
        rw [he] at hj
        rcases List.mem_cons.mp hj with h | h
        · exact h ▸ hb
        · exact ih _ j h

/-- Every job of the spec-modelled card-link loop satisfies all four bounds. -/
theorem cardlink_loop_bounds (s d : String) (links : List Link) (seen : List String) :
    ∀ j ∈ AppParsers.cardLinkLoop s d links seen, boundsAppFull j := by
  induction links generalizing seen with
  | nil =>
    intro j hj
    simp [AppParsers.cardLinkLoop] at hj
  | cons l rest ih =>
    intro j hj
    by_cases hmem : l.href ∈ seen
    · rw [show AppParsers.cardLinkLoop s d (l :: rest) seen =
          AppParsers.cardLinkLoop s d rest seen from by
        simp only [AppParsers.cardLinkLoop]; rw [if_pos hmem]] at hj
      exact ih seen j hj
    · by_cases htl : (l.headText.getD l.fullText).length < 3
      · rw [show AppParsers.cardLinkLoop s d (l :: rest) seen =
            AppParsers.cardLinkLoop s d rest (l.href :: seen) from by
          simp only [AppParsers.cardLinkLoop]; rw [if_neg hmem, if_pos htl]] at hj
        exact ih _ j hj
      · have he : ∃ job : AppParsers.Job, boundsAppFull job ∧
            AppParsers.cardLinkLoop s d (l :: rest) seen =
              job :: AppParsers.cardLinkLoop s d rest (l.href :: seen) := by
          simp only [AppParsers.cardLinkLoop]
          rw [if_neg hmem, if_neg htl]
          refine ⟨_, ?_, rfl⟩
          cases l.parent with
          | none =>
            exact ⟨pyTake_length_le _ _, Nat.zero_le 100, Nat.zero_le 100,
              pyTake_length_le _ _⟩
          | some p =>
            exact ⟨pyTake_length_le _ _, ite_pyTake_length_le _ _ _,
              ite_pyTake_length_le _ _ _, pyTake_length_le _ _⟩
        obtain ⟨job, hb, he⟩ := he
        rw [he] at hj
        rcases List.mem_cons.mp hj with h | h
        · exact h ▸ hb
        · exact ih _ j h

/-- Every listing of the `job_analyzer.py` LinkedIn loop has bounded
title/company/location (its `raw_text` is unclamped). -/
theorem ja_linkedin_loop_bounds (d : String) (links : List Link) (seen : List String) :
    ∀ j ∈ JobAnalyzer.parse_linkedin_loop d links seen, boundsJA j := by
  induction links generalizing seen with
  | nil =>
    intro j hj
    simp [JobAnalyzer.parse_linkedin_loop] at hj
  | cons l rest ih =>
    intro j hj
    by_cases hmem : l.href ∈ seen
    · rw [show JobAnalyzer.parse_linkedin_loop d (l :: rest) seen =
          JobAnalyzer.parse_linkedin_loop d rest seen from by
        simp only [JobAnalyzer.parse_linkedin_loop]; rw [if_pos hmem]] at hj
      exact ih seen j hj
    · by_cases htl : (l.headText.getD l.fullText).length < 3
      · rw [show JobAnalyzer.parse_linkedin_loop d (l :: rest) seen =
            JobAnalyzer.parse_linkedin_loop d rest (l.href :: seen) from by
          simp only [JobAnalyzer.parse_linkedin_loop]; rw [if_neg hmem, if_pos htl]] at hj
        exact ih _ j hj
      · have he : ∃ job : JobAnalyzer.JobListing, boundsJA job ∧
            JobAnalyzer.parse_linkedin_loop d (l :: rest) seen =
              job :: JobAnalyzer.parse_linkedin_loop d rest (l.href :: seen) := by
          simp only [JobAnalyzer.parse_linkedin_loop]
          rw [if_neg hmem, if_neg htl]
          exact ⟨_, ⟨pyTake_length_le _ _, pyTake_length_le _ _, pyTake_length_le _ _⟩, rfl⟩
        obtain ⟨job, hb, he⟩ := he
        rw [he] at hj
        rcases List.mem_cons.mp hj with h | h
        · exact h ▸ hb
        · exact ih _ j h

/-- Every listing of the `job_analyzer.py` Indeed loop has bounded
title/company/location (its `raw_text` is unclamped). -/
theorem ja_indeed_loop_bounds (d : String) (links : List Link) (seen : List String) :
    ∀ j ∈ JobAnalyzer.parse_indeed_loop d links seen, boundsJA j := by
  induction links generalizing seen with
  | nil =>
    intro j hj
    simp [JobAnalyzer.parse_indeed_loop] at hj
  | cons l rest ih =>
    intro j hj
    by_cases hmem : l.href ∈ seen
    · rw [show JobAnalyzer.parse_indeed_loop d (l :: rest) seen =
          JobAnalyzer.parse_indeed_loop d rest seen from by
        simp only [JobAnalyzer.parse_indeed_loop]; rw [if_pos hmem]] at hj
      exact ih seen j hj
    · by_cases htl : l.fullText.length < 3
      · rw [show JobAnalyzer.parse_indeed_loop d (l :: rest) seen =
            JobAnalyzer.parse_indeed_loop d rest (l.href :: seen) from by
          simp only [JobAnalyzer.parse_indeed_loop]; rw [if_neg hmem, if_pos htl]] at hj
        exact ih _ j hj
      · have he : ∃ job : JobAnalyzer.JobListing, boundsJA job ∧
            JobAnalyzer.parse_indeed_loop d (l :: rest) seen =
              job :: JobAnalyzer.parse_indeed_loop d rest (l.href :: seen) := by
          simp only [JobAnalyzer.parse_indeed_loop]
          rw [if_neg hmem, if_neg htl]
          exact ⟨_, ⟨pyTake_length_le _ _, pyTake_length_le _ _, pyTake_length_le _ _⟩, rfl⟩
        obtain ⟨job, hb, he⟩ := he
        rw [he] at hj
        rcases List.mem_cons.mp hj with h | h
        · exact h ▸ hb
        · exact ih _ j h

/-- The assembled WWR job dict clamps title to 200 and company to 100, and
its location is the literal "Remote". -/
theorem wwr_mkJob_bounds (co jt u de pd : String) (hs : String → String) (t : String) :
    boundsWwr (Wwr.itemJob.mkJob co jt u de pd hs t) :=
  ⟨pyTake_length_le _ _, pyTake_length_le _ _, by show (6 : Nat) ≤ 100; decide⟩

/-- Any job emitted for a single RSS item satisfies the WWR bounds. -/
theorem itemJob_bounds (pd : String → Option Int) (hs : String → String)
    (cutoff now : Int) (item : Wwr.RssItem) (j : Wwr.Job)
    (h : Wwr.itemJob pd hs cutoff now item = some j) : boundsWwr j := by
  unfold Wwr.itemJob at h
  split at h
  · cases h
  · obtain ⟨ts, _, hj⟩ := Option.map_eq_some'.mp h
    rw [← hj]
    exact wwr_mkJob_bounds _ _ _ _ _ _ _

/-- Every job of a WWR fetch satisfies the WWR bounds. -/
theorem fetch_wwr_bounds (feeds : List (Option (List Wwr.RssItem)))
    (pd : String → Option Int) (hs : String → String) (now : Int) (days_back : Nat) :
    ∀ j ∈ Wwr.fetch_wwr_jobs feeds pd hs now days_back, boundsWwr j := by
  intro j hj
  unfold Wwr.fetch_wwr_jobs at hj
  simp only [List.mem_flatten, List.mem_map] at hj
  obtain ⟨l, ⟨f, hf, hfl⟩, hjl⟩ := hj
  subst hfl
  cases f with
  | none => simp at hjl
  | some items =>
    simp only [List.mem_filterMap] at hjl
    obtain ⟨item, _, hit⟩ := hjl
    exact itemJob_bounds _ _ _ _ _ _ hit

/-- Claim C3 amended: every parser bounds `len(title) ≤ 200`,
`len(company) ≤ 100` and `len(location) ≤ 100`. The `len(rawText) ≤ 1000`
bound additionally holds for the LinkedIn and Indeed parsers of `local_app.py`
and `email_scanner/handler.py` and for the spec-modelled app
LinkedIn/Greenhouse/Wellfound parsers, but not universally: the app
`IndeedParser` skips the `[:1000]` clamp when the anchor has no enclosing
block (see the counterexample), the `job_analyzer.py` parsers store
`raw_text` with no clamp at all, and the WWR fetcher's `raw_text` is the
description clamped at 2000 or the unclamped item title. -/
theorem c3_field_bounds_amended (links : List Link) (d : String)
    (feeds : List (Option (List Wwr.RssItem))) (pd : String → Option Int)
    (hs : String → String) (now : Int) (days_back : Nat) :
    (LocalApp.parse_linkedin_jobs links d).Forall boundsLocal ∧
    (LocalApp.parse_indeed_jobs links d).Forall boundsLocal ∧
    (Handler.parse_linkedin_jobs links d).Forall boundsHandler ∧
    (Handler.parse_indeed_jobs links d).Forall boundsHandler ∧
    (JobAnalyzer.parse_linkedin_email links d).Forall boundsJA ∧
    (JobAnalyzer.parse_indeed_email links d).Forall boundsJA ∧
    (AppParsers.indeedParse links d).Forall boundsApp ∧
    (AppParsers.linkedinParseM links d).Forall boundsAppFull ∧
    (AppParsers.greenhouseParseM links d).Forall boundsAppFull ∧
    (AppParsers.wellfoundParseM links d).Forall boundsAppFull ∧
    (AppParsers.wwrEmailParseM links d).Forall boundsAppFull ∧
    (Wwr.fetch_wwr_jobs feeds pd hs now days_back).Forall boundsWwr := by
  refine ⟨?_, ?_, ?_, ?_, ?_, ?_, ?_, ?_, ?_, ?_, trivial, ?_⟩
  · exact List.forall_iff_forall_mem.mpr (linkedin_loop_bounds d links [])
  · exact List.forall_iff_forall_mem.mpr (indeed_loop_bounds d links [])
  · exact List.forall_iff_forall_mem.mpr (handler_linkedin_loop_bounds d links [])
  · exact List.forall_iff_forall_mem.mpr (handler_indeed_loop_bounds d links [])
  · exact List.forall_iff_forall_mem.mpr (ja_linkedin_loop_bounds d links [])
  · exact List.forall_iff_forall_mem.mpr (ja_indeed_loop_bounds d links [])
  · exact List.forall_iff_forall_mem.mpr (app_indeed_loop_bounds d links [])
  · exact List.forall_iff_forall_mem.mpr (cardlink_loop_bounds "linkedin" d links [])
  · exact List.forall_iff_forall_mem.mpr (cardlink_loop_bounds "greenhouse" d links [])
  · exact List.forall_iff_forall_mem.mpr (cardlink_loop_bounds "wellfound" d links [])
  · exact List.forall_iff_forall_mem.mpr (fetch_wwr_bounds feeds pd hs now days_back)

/-! ## Company-default lemmas (Claim C9) -/

/-- The head surviving a `dropWhile` fails the predicate. -/
theorem dropWhile_cons_head {p : Char → Bool} {l : List Char} {c : Char} {t : List Char}
    (h : l.dropWhile p = c :: t) : p c = false := by
  induction l with
  | nil => cases h
  | cons a l ih =>
    rw [List.dropWhile_cons] at h
    split at h
    · exact ih h
    · rename_i hh
      injection h with h1 h2
      subst h1
      simpa using hh

/-- A nonempty stripped string starts with a non-whitespace character. -/
theorem pyStrip_head (y : String) (h : pyStrip y ≠ "") :
    ∃ c t, (pyStrip y).data = c :: t ∧ c.isWhitespace = false := by
  cases hc : (pyStrip y).data with
  | nil => exact absurd ((str_eq_empty_iff _).mpr hc) h
  | cons c t =>
    refine ⟨c, t, rfl, ?_⟩
    have hc2 : ((y.data.reverse.dropWhile Char.isWhitespace).reverse).dropWhile Char.isWhitespace
        = c :: t := hc
    exact dropWhile_cons_head hc2

/-- Word splitting with a nonempty accumulator yields a nonempty first word. -/
theorem wordsAux_ne_nil (l : List Char) (acc : List Char) (h : acc ≠ []) :
    ∃ w ws, wordsAux l acc = w :: ws ∧ w ≠ [] := by
  induction l generalizing acc with
  | nil =>
    refine ⟨acc.reverse, [], ?_, by simpa using h⟩
    rw [wordsAux, if_neg (by simpa [List.isEmpty_iff] using h)]
  | cons c cs ih =>
    by_cases hw : c.isWhitespace = true
    · refine ⟨acc.reverse, wordsAux cs [], ?_, by simpa using h⟩
      rw [wordsAux, if_pos hw, if_neg (by simpa [List.isEmpty_iff] using h)]
    · obtain ⟨w, ws, he, hwne⟩ := ih (c :: acc) (by simp)
      refine ⟨w, ws, ?_, hwne⟩
      rw [wordsAux, if_neg hw]
      exact he

/-- Joining a word list with a nonempty head is nonempty. -/
theorem joinWords_cons_ne_nil (w : List Char) (ws : List (List Char)) (h : w ≠ []) :
    joinWords (w :: ws) ≠ [] := by
  cases ws with
  | nil => simpa [joinWords] using h
  | cons a as =>
    have heq : joinWords (w :: a :: as) = w ++ ' ' :: joinWords (a :: as) := rfl
    rw [heq]
    intro hcontra
    rcases List.append_eq_nil.mp hcontra with ⟨h1, h2⟩
    cases h2

/-- Whitespace-collapsing a string starting with a non-whitespace character
cannot produce the empty string. -/
theorem clean_text_field_ne_empty (s : String) (c : Char) (t : List Char)
    (hd : s.data = c :: t) (hws : c.isWhitespace = false) :
    AppParsers.clean_text_field s ≠ "" := by
  intro hfalse
  rw [str_eq_empty_iff] at hfalse
  revert hfalse
  show joinWords (wordsOf s.data) = [] → False
  rw [hd]
  unfold wordsOf
  rw [wordsAux, if_neg (by simp [hws])]
  obtain ⟨w, ws, he, hwne⟩ := wordsAux_ne_nil t [c] (by simp)
  rw [he]
  exact fun hf => joinWords_cons_ne_nil w ws hwne hf

/-- A positive slice of a nonempty string is nonempty. -/
theorem pyTake_ne_empty (n : Nat) (s : String) (hn : 0 < n) (hs : s ≠ "") :
    pyTake n s ≠ "" := by
  intro hfalse
  rw [str_eq_empty_iff] at hfalse
  have hdata : s.data.take n = [] := hfalse
  cases hd : s.data with
  | nil => exact hs ((str_eq_empty_iff s).mpr hd)
  | cons c t =>
    rw [hd] at hdata
    cases n with
    | zero => omega
    | succ m => simp at hdata

/-- `getD` at an in-range index is a member. -/
theorem getD_mem {α : Type} (l : List α) (i : Nat) (d : α) (h : i < l.length) :
    l.getD i d ∈ l := by
  rw [List.getD_eq_getElem?_getD, List.getElem?_eq_getElem h]
  exact List.getElem_mem h

/-- Every line the Indeed company scan can pick is a stripped string longer
than two characters. -/
theorem lines_elem (raws : List String) (x : String)
    (hx : x ∈ (raws.map pyStrip).filter (fun l : String => decide (2 < l.length))) :
    (∃ y, x = pyStrip y) ∧ 2 < x.length := by
  obtain ⟨hmem, hpred⟩ := List.mem_filter.mp hx
  obtain ⟨y, _, hy⟩ := List.mem_map.mp hmem
  exact ⟨⟨y, hy.symm⟩, of_decide_eq_true hpred⟩

/-- A nonempty company resolved by the scan is `lines[j][:100]` for some line. -/
theorem indeedCompanyLoc_fst (lines : List String) (t : String)
    (h : (AppParsers.indeedCompanyLoc lines t).1 ≠ "") :
    ∃ x, x ∈ lines ∧ (AppParsers.indeedCompanyLoc lines t).1 = pyTake 100 x := by
  unfold AppParsers.indeedCompanyLoc at h ⊢
  split at h
  · exact absurd rfl h
  · rename_i i h1
    split at h
    · exact absurd rfl h
    · rename_i j h2
      have hj : j ∈ List.range' (i + 1) (min (i + 4) lines.length - (i + 1)) :=
        List.mem_of_find?_eq_some h2
      have hjlt : j < lines.length := by
        rcases List.mem_range'_1.mp hj with ⟨hj1, hj2⟩
        have hM : min (i + 4) lines.length ≤ lines.length := Nat.min_le_right _ _
        omega
      refine ⟨lines.getD j "", getD_mem lines j "" hjlt, ?_⟩
      split
      · rfl
      · rfl

/-- The company field assembled by the app Indeed parser from an enclosing
block is never empty: an unresolved scan yields the literal "Unknown", and a
resolved one collapses a stripped, non-short line. -/
theorem company_field_ne_empty (raws : List String) (t : String) :
    pyTake 100
      (if (AppParsers.indeedCompanyLoc
            ((raws.map pyStrip).filter (fun l : String => decide (2 < l.length))) t).1 ≠ "" then
        AppParsers.clean_text_field
          (AppParsers.indeedCompanyLoc
            ((raws.map pyStrip).filter (fun l : String => decide (2 < l.length))) t).1
      else "Unknown") ≠ "" := by
  by_cases hq : (AppParsers.indeedCompanyLoc
      ((raws.map pyStrip).filter (fun l : String => decide (2 < l.length))) t).1 = ""
  · rw [if_neg (not_not_intro hq)]
    decide
  · rw [if_pos hq]
    obtain ⟨x, hxmem, hxeq⟩ := indeedCompanyLoc_fst _ t hq
    obtain ⟨⟨y, hy⟩, hxlen⟩ := lines_elem raws x hxmem
    have hxne : x ≠ "" := by
      intro hx
      rw [hx] at hxlen
      exact absurd hxlen (by decide)
    have hyne : pyStrip y ≠ "" := by
      rw [← hy]
      exact hxne
    obtain ⟨c, t2, hdt, hcws⟩ := pyStrip_head y hyne
    have h100 : (pyTake 100 x).data = c :: t2.take 99 := by
      show x.data.take 100 = c :: t2.take 99
      rw [hy]
      show (pyStrip y).data.take 100 = c :: t2.take 99
      rw [hdt]
      rfl
    have hctf := clean_text_field_ne_empty (pyTake 100 x) c (t2.take 99) h100 hcws
    rw [hxeq]
    exact pyTake_ne_empty 100 _ (by omega) hctf

/-- Every job the app Indeed loop emits has a nonempty company. -/
theorem app_indeed_loop_company (d : String) (links : List Link) (seen : List String) :
    ∀ j ∈ AppParsers.indeedLoop d links seen, j.company ≠ "" := by
  induction links generalizing seen with
  | nil =>
    intro j hj
    simp [AppParsers.indeedLoop] at hj
  | cons l rest ih =>
    intro j hj
    by_cases hmem : AppParsers.clean_job_url l.href = "" ∨ AppParsers.clean_job_url l.href ∈ seen
    · rw [show AppParsers.indeedLoop d (l :: rest) seen =
          AppParsers.indeedLoop d rest seen from by
        simp only [AppParsers.indeedLoop]; rw [if_pos hmem]] at hj
      exact ih seen j hj
    · by_cases hex : AppParsers.exclude_keywords.any
          (fun kw => containsSub kw (pyLower (collapseWs l.fullText))) = true
      · rw [show AppParsers.indeedLoop d (l :: rest) seen =
            AppParsers.indeedLoop d rest seen from by
          simp only [AppParsers.indeedLoop]; rw [if_neg hmem, if_pos hex]] at hj
        exact ih seen j hj
      · by_cases hlen : (collapseWs l.fullText).length < 5
        · rw [show AppParsers.indeedLoop d (l :: rest) seen =
              AppParsers.indeedLoop d rest seen from by
            simp only [AppParsers.indeedLoop]; rw [if_neg hmem, if_neg hex, if_pos hlen]] at hj
          exact ih seen j hj
        · have he : ∃ job : AppParsers.Job, job.company ≠ "" ∧
              AppParsers.indeedLoop d (l :: rest) seen =
                job :: AppParsers.indeedLoop d rest (AppParsers.clean_job_url l.href :: seen) := by
            simp only [AppParsers.indeedLoop]
            rw [if_neg hmem, if_neg hex, if_neg hlen]
            refine ⟨_, ?_, rfl⟩
            cases l.parent with
            | none =>
              show pyTake 100
                  (if ("" : String) ≠ "" then AppParsers.clean_text_field "" else "Unknown") ≠ ""
              decide
            | some p =>
              exact company_field_ne_empty p.rawLines (collapseWs l.fullText)
          obtain ⟨job, hb, he⟩ := he
          rw [he] at hj
          rcases List.mem_cons.mp hj with h | h
          · exact h ▸ hb
          · exact ih _ j h

/-- The company value the app Indeed loop's scan produces for one anchor,
before the "Unknown" default is applied (the `company` variable of
`IndeedParser.parse` just before `clean_text_field(company) if company else
"Unknown"`). -/
def companyScan (l : Link) : String :=
  match l.parent with
  | none => ""
  | some p =>
    (AppParsers.indeedCompanyLoc
      ((p.rawLines.map pyStrip).filter (fun s : String => decide (2 < s.length)))
      (collapseWs l.fullText)).1

/-- The location value the scan produces for one anchor, before cleaning. -/
def locationScan (l : Link) : String :=
  match l.parent with
  | none => ""
  | some p =>
    (AppParsers.indeedCompanyLoc
      ((p.rawLines.map pyStrip).filter (fun s : String => decide (2 < s.length)))
      (collapseWs l.fullText)).2

/-- An empty scan result makes the assembled company field the literal
"Unknown". -/
theorem company_field_default (raws : List String) (t : String)
    (h : (AppParsers.indeedCompanyLoc
        ((raws.map pyStrip).filter (fun s : String => decide (2 < s.length))) t).1 = "") :
    pyTake 100
      (if (AppParsers.indeedCompanyLoc
            ((raws.map pyStrip).filter (fun s : String => decide (2 < s.length))) t).1 ≠ "" then
        AppParsers.clean_text_field
          (AppParsers.indeedCompanyLoc
            ((raws.map pyStrip).filter (fun s : String => decide (2 < s.length))) t).1
      else "Unknown") = "Unknown" := by
  rw [if_neg (not_not_intro h)]
  decide

/-- An empty scan result makes the assembled location field empty. -/
theorem location_field_default (raws : List String) (t : String)
    (h : (AppParsers.indeedCompanyLoc
        ((raws.map pyStrip).filter (fun s : String => decide (2 < s.length))) t).2 = "") :
    pyTake 100 (AppParsers.clean_text_field
      (AppParsers.indeedCompanyLoc
        ((raws.map pyStrip).filter (fun s : String => decide (2 < s.length))) t).2) = "" := by
  rw [h]
  decide

/-- When no anchor's scan resolves a company or location, every emitted job
carries the literal "Unknown" company and the empty location. -/
theorem app_indeed_loop_company_default (d : String) (links : List Link) (seen : List String)
    (hc : ∀ l ∈ links, companyScan l = "")
    (hl : ∀ l ∈ links, locationScan l = "") :
    ∀ j ∈ AppParsers.indeedLoop d links seen, j.company = "Unknown" ∧ j.location = "" := by
  induction links generalizing seen with
  | nil =>
    intro j hj
    simp [AppParsers.indeedLoop] at hj
  | cons l rest ih =>
    have hc2 : ∀ x ∈ rest, companyScan x = "" :=
      fun x hx => hc x (List.mem_cons_of_mem l hx)
    have hl2 : ∀ x ∈ rest, locationScan x = "" :=
      fun x hx => hl x (List.mem_cons_of_mem l hx)
    intro j hj
    by_cases hmem : AppParsers.clean_job_url l.href = "" ∨ AppParsers.clean_job_url l.href ∈ seen
    · rw [show AppParsers.indeedLoop d (l :: rest) seen =
          AppParsers.indeedLoop d rest seen from by
        simp only [AppParsers.indeedLoop]; rw [if_pos hmem]] at hj
      exact ih seen hc2 hl2 j hj
    · by_cases hex : AppParsers.exclude_keywords.any
          (fun kw => containsSub kw (pyLower (collapseWs l.fullText))) = true
      · rw [show AppParsers.indeedLoop d (l :: rest) seen =
            AppParsers.indeedLoop d rest seen from by
          simp only [AppParsers.indeedLoop]; rw [if_neg hmem, if_pos hex]] at hj
        exact ih seen hc2 hl2 j hj
      · by_cases hlen : (collapseWs l.fullText).length < 5
        · rw [show AppParsers.indeedLoop d (l :: rest) seen =
              AppParsers.indeedLoop d rest seen from by
            simp only [AppParsers.indeedLoop]; rw [if_neg hmem, if_neg hex, if_pos hlen]] at hj
          exact ih seen hc2 hl2 j hj
        · have he : ∃ job : AppParsers.Job, (job.company = "Unknown" ∧ job.location = "") ∧
              AppParsers.indeedLoop d (l :: rest) seen =
                job :: AppParsers.indeedLoop d rest (AppParsers.clean_job_url l.href :: seen) := by
            simp only [AppParsers.indeedLoop]
            rw [if_neg hmem, if_neg hex, if_neg hlen]
            refine ⟨_, ?_, rfl⟩
            cases hp : l.parent with
            | none =>
              constructor
              · show pyTake 100
                    (if ("" : String) ≠ "" then AppParsers.clean_text_field "" else "Unknown") =
                  "Unknown"
                decide
              · show pyTake 100 (AppParsers.clean_text_field "") = ""
                decide
            | some p =>
              have hcl : (AppParsers.indeedCompanyLoc
                  ((p.rawLines.map pyStrip).filter (fun s : String => decide (2 < s.length)))
                  (collapseWs l.fullText)).1 = "" := by
                have h0 := hc l (List.mem_cons_self l rest)
                unfold companyScan at h0
                rw [hp] at h0
                exact h0
              have hll : (AppParsers.indeedCompanyLoc
                  ((p.rawLines.map pyStrip).filter (fun s : String => decide (2 < s.length)))
                  (collapseWs l.fullText)).2 = "" := by
                have h0 := hl l (List.mem_cons_self l rest)
                unfold locationScan at h0
                rw [hp] at h0
                exact h0
              exact ⟨company_field_default p.rawLines (collapseWs l.fullText) hcl,
                location_field_default p.rawLines (collapseWs l.fullText) hll⟩
          obtain ⟨job, hb, he⟩ := he
          rw [he] at hj
          rcases List.mem_cons.mp hj with h | h
          · exact h ▸ hb
          · exact ih _ hc2 hl2 j h

/-- Claim C9 amended: in the app `IndeedParser`, a job whose company the scan
cannot resolve gets the literal default "Unknown" — the company field is
never the empty string — and a job whose location the scan cannot resolve
gets the empty string; the `local_app` LinkedIn parser cited by the claim
applies no such default and leaves an unresolved company and location as the
empty string (see the counterexample). -/
theorem c9_app_indeed_company_default (links links2 : List Link) (d d2 : String)
    (hc : links.all (fun l => companyScan l == "") = true)
    (hl : links.all (fun l => locationScan l == "") = true) :
    (AppParsers.indeedParse links d).Forall
        (fun j => j.company = "Unknown" ∧ j.location = "") ∧
    (AppParsers.indeedParse links2 d2).Forall (fun j => j.company ≠ "") := by
  have hc2 : ∀ l ∈ links, companyScan l = "" :=
    fun l hlm => eq_of_beq (List.all_eq_true.mp hc l hlm)
  have hl2 : ∀ l ∈ links, locationScan l = "" :=
    fun l hlm => eq_of_beq (List.all_eq_true.mp hl l hlm)
  exact ⟨List.forall_iff_forall_mem.mpr (app_indeed_loop_company_default d links [] hc2 hl2),
    List.forall_iff_forall_mem.mpr (app_indeed_loop_company d2 links2 [])⟩

/-- Witness for C9 at the concrete block-less anchor: its scans resolve
nothing, and the parser emits exactly one job with company "Unknown" and
empty location. -/
theorem c9_app_indeed_company_default_witness :
    [longTextLink].all (fun l => companyScan l == "") = true ∧
    [longTextLink].all (fun l => locationScan l == "") = true ∧
    ((AppParsers.indeedParse [longTextLink] "d").Forall
        (fun j => j.company = "Unknown" ∧ j.location = "") ∧
     (AppParsers.indeedParse [longTextLink] "d").Forall (fun j => j.company ≠ "")) :=
  ⟨by decide, by decide,
   c9_app_indeed_company_default [longTextLink] [longTextLink] "d" "d" (by decide) (by decide)⟩
